import Mathlib

/-!
Verification of the dev-setup installation engine.

This file gives a shallow embedding, in Lean 4, of the core components of the
dev-setup repository (a macOS developer-environment bootstrap tool written in
Go) and proves properties of them:

* the task / tool data model (`internal/config`);
* the dependency resolver `GetInstallOrder` (Kahn's algorithm,
  `internal/config/tools_config.go`);
* the parallel executor `Execute` / `executeTask` / `executeParallelGroup` /
  `groupTasks` (`internal/installer/parallel.go`);
* the tool installer `installTool` / `isToolInstalled` /
  `groupToolsByParallelGroup` (`internal/installer/tool_installer.go`);
* the state store `LoadState` / `GetInstallProgress` / `GetSetupProgress`
  (`internal/config/state.go`);
* the statistics aggregator `GetTaskStatistics`.

Side effects (running shell commands, reading the clock and the file system)
are modelled by explicit oracle parameters: a command's outcome is a value
supplied by the environment, and each Go function becomes a pure Lean function
of its inputs plus those oracles.  Go `map` iteration order, which the
language leaves unspecified, is modelled by an explicit order parameter that
theorems quantify over.  Go `int` and `time.Duration` values are modelled by
`Int`, Go slices by `List`.
-/

namespace DevSetup

/-- Embeds `config.Task` (internal/config/loader.go): one unit of work for the
parallel executor. `timeout` and `retryCount` are Go ints (`time.Duration` is
an integer nanosecond count), modelled by `Int`. -/
structure Task where
  name : String
  command : String
  parallelGroup : String
  required : Bool
  timeout : Int
  retryCount : Int
  condition : String
deriving DecidableEq, Inhabited

/-- Embeds `config.ToolInstall` (internal/config/tools_config.go). -/
structure ToolInstall where
  command : String
  parallelGroup : String
  timeout : Int
deriving DecidableEq, Inhabited

/-- Embeds `config.Tool` (internal/config/tools_config.go). -/
structure Tool where
  name : String
  description : String
  check : String
  install : ToolInstall
  dependsOn : List String
  required : Bool
deriving DecidableEq, Inhabited

/-- Embeds `config.ToolState` (internal/config/state.go); the timestamp is an
abstract integer. -/
structure ToolState where
  version : String
  path : String
  installedAt : Int
deriving DecidableEq, Inhabited

/-- Embeds `config.State` (internal/config/state.go).  The two Go maps are
modelled as association lists; `Option` distinguishes a `nil` Go map (`none`)
from an initialized one (`some`), which `LoadState` normalizes. -/
structure State where
  installed : Option (List (String × ToolState))
  configured : Option (List (String × Bool))
  lastInstall : Int
  lastSetup : Int
  version : String
deriving DecidableEq, Inhabited

/-- The fresh `State` built by `LoadState` on first run:
`&State{Installed: make(...), Configured: make(...)}` — both maps initialized
and empty, zero timestamps, empty version. -/
def freshState : State :=
  { installed := some []
    configured := some []
    lastInstall := 0
    lastSetup := 0
    version := "" }

/-- Embeds the map normalization at the end of Go `LoadState`: `nil` maps
parsed from JSON are replaced by initialized empty maps. -/
def normalizeState (s : State) : State :=
  { s with
    installed := some (s.installed.getD [])
    configured := some (s.configured.getD []) }

/-- Embeds `config.LoadState` (internal/config/state.go).  The file system is
an oracle: `none` means `os.Stat` reports the state file missing;
`some (.error e)` means the file exists but `os.ReadFile` fails; `some (.ok d)`
is the file's content.  JSON decoding is the oracle `parse`. -/
def LoadState (file : Option (Except String String))
    (parse : String → Option State) : Except String State :=
  match file with
  | none => .ok freshState
  | some (.error e) => .error ("failed to read state file: " ++ e)
  | some (.ok data) =>
    match parse data with
    | none => .error "failed to parse state file"
    | some s => .ok (normalizeState s)

/-- Embeds `config.GetInstallProgress` (internal/config/state.go):
`(len(state.Installed) * 100) / totalTools`, with `100` returned when
`totalTools == 0`.  Go `int` division on the nonnegative values arising here
agrees with `Int.tdiv`. -/
def GetInstallProgress (state : State) (totalTools : Int) : Int :=
  if totalTools = 0 then 100
  else Int.tdiv (((state.installed.getD []).length : Int) * 100) totalTools

/-- Embeds `config.GetSetupProgress` (internal/config/state.go): counts the
`true` entries of the configured map. -/
def GetSetupProgress (state : State) (totalTasks : Int) : Int :=
  if totalTasks = 0 then 100
  else
    let configured := ((state.configured.getD []).filter (fun kv => kv.2)).length
    Int.tdiv ((configured : Int) * 100) totalTasks

/-- The error value `fmt.Errorf("%w: %s", lastErr, strings.TrimSpace(output))`
built by `executeTask` when all attempts fail: it wraps the last attempt's
error (`none` only in the degenerate case where the loop body never ran, i.e.
a negative `RetryCount`) together with the trimmed last output. -/
structure FailInfo where
  lastErr : Option String
  trimmedOutput : String
deriving DecidableEq, Inhabited

/-- Embeds `installer.TaskResult` (internal/installer/parallel.go).
`duration` is the wall-clock `time.Since(startTime)`, supplied by the
environment. -/
structure TaskResult where
  task : Task
  error : Option FailInfo
  output : String
  duration : Int
deriving DecidableEq, Inhabited

/-- Trace of the retry loop of `executeTask`: how many attempts ran, the
backoff sleeps (in seconds) performed between attempts, and the final outcome
(`ok output` on the first success, otherwise `error (lastErr, lastOutput)`). -/
structure AttemptsTrace where
  attempts : Nat
  sleeps : List Nat
  outcome : Except (Option String × String) String

/-- Embeds the retry loop of `executeTask`.  `run i` is the oracle for the
`i`-th execution of `bash -c task.Command`: `(err, output)` with `err = none`
on exit code 0.  The loop walks the attempt indices in order; before attempt
`i > 0` it sleeps `i` seconds (`time.Sleep(time.Second * attempt)`).  The
accumulators carry Go's `lastErr` (initially `nil`) and `output` (initially
empty). -/
def runAttemptLoop (run : Nat → Option String × String) :
    List Nat → Option String → String → AttemptsTrace
  | [], lastErr, output => ⟨0, [], .error (lastErr, output)⟩
  | i :: rest, _, _ =>
    let pre := if 0 < i then [i] else []
    let r := run i
    match r.1 with
    | none => ⟨1, pre, .ok r.2⟩
    | some m =>
      let t := runAttemptLoop run rest (some m) r.2
      ⟨t.attempts + 1, pre ++ t.sleeps, t.outcome⟩

/-- Embeds `retries := task.RetryCount; if retries == 0 { retries = 1 }` and
the loop bound `attempt < retries` of `executeTask`: the number of attempt
indices the loop ranges over. -/
def attemptsBudget (retryCount : Int) : Nat :=
  (if retryCount = 0 then 1 else retryCount).toNat

/-- Embeds `ParallelExecutor.executeTask` (internal/installer/parallel.go).
`checkCond c` is the oracle for `checkCondition` (exit 0 of `bash -c c`),
`run` is the per-attempt command oracle, `elapsed` the wall time recorded as
the result's duration.  Returns the `TaskResult` together with the attempt
count and the backoff sleeps actually performed. -/
def executeTask (checkCond : String → Bool) (run : Nat → Option String × String)
    (elapsed : Int) (task : Task) : TaskResult × Nat × List Nat :=
  if task.condition ≠ "" ∧ checkCond task.condition = false then
    (⟨task, none, "Skipped (condition not met)", elapsed⟩, 0, [])
  else
    let t := runAttemptLoop run (List.range (attemptsBudget task.retryCount)) none ""
    match t.outcome with
    | .ok out => (⟨task, none, out, elapsed⟩, t.attempts, t.sleeps)
    | .error (le, out) => (⟨task, some ⟨le, out.trim⟩, out, elapsed⟩, t.attempts, t.sleeps)

/-- Embeds `installer.TaskStatistics` (internal/installer/parallel.go). -/
structure TaskStatistics where
  totalTasks : Nat
  successfulTasks : Nat
  failedTasks : Nat
  averageDuration : Int
  longestTask : Int
  longestTaskName : String
deriving DecidableEq, Inhabited

/-- Accumulator of the loop inside `GetTaskStatistics`. -/
structure StatsAcc where
  successfulTasks : Nat
  failedTasks : Nat
  totalDuration : Int
  longestTask : Int
  longestTaskName : String
deriving DecidableEq, Inhabited

/-- One iteration of the loop inside `GetTaskStatistics`. -/
def statsStep (acc : StatsAcc) (r : TaskResult) : StatsAcc :=
  let a1 := { acc with totalDuration := acc.totalDuration + r.duration }
  let a2 :=
    match r.error with
    | some _ => { a1 with failedTasks := a1.failedTasks + 1 }
    | none => { a1 with successfulTasks := a1.successfulTasks + 1 }
  if r.duration > a2.longestTask then
    { a2 with longestTask := r.duration, longestTaskName := r.task.name }
  else a2

/-- Embeds `installer.GetTaskStatistics` (internal/installer/parallel.go).
Go duration division truncates; on the nonnegative totals arising from real
runs this is `Int.tdiv`. -/
def GetTaskStatistics (results : List TaskResult) : TaskStatistics :=
  let acc := results.foldl statsStep ⟨0, 0, 0, 0, ""⟩
  { totalTasks := results.length
    successfulTasks := acc.successfulTasks
    failedTasks := acc.failedTasks
    averageDuration :=
      if results.length > 0 then Int.tdiv acc.totalDuration (results.length : Int) else 0
    longestTask := acc.longestTask
    longestTaskName := acc.longestTaskName }

/-- Inserts a task into the bucket of its group key, preserving first-insertion
key order and per-key input order — the observable content of the Go map
append `groups[groupName] = append(groups[groupName], task)`. -/
def insertGroup (gs : List (String × List Task)) (k : String) (t : Task) :
    List (String × List Task) :=
  match gs with
  | [] => [(k, [t])]
  | (k', ts) :: rest =>
    if k' = k then (k', ts ++ [t]) :: rest
    else (k', ts) :: insertGroup rest k t

/-- Embeds `ParallelExecutor.groupTasks` (internal/installer/parallel.go): a
map from `parallel_group` name to all tasks carrying that name, in input
order.  Note this keys on the tag alone: it merges same-tag tasks across any
gap, and collects every empty-tag task into the single `""` bucket. -/
def groupTasks (tasks : List Task) : List (String × List Task) :=
  tasks.foldl (fun gs t => insertGroup gs t.parallelGroup t) []

/-- Association-list lookup of a group bucket (the read side of the Go map). -/
def lookupGroup : List (String × List Task) → String → Option (List Task)
  | [], _ => none
  | (k', ts) :: rest, k => if k' = k then some ts else lookupGroup rest k

/-- Embeds the loop of `ToolInstaller.groupToolsByParallelGroup`
(internal/installer/tool_installer.go): scans the dependency-ordered tool list
and starts a new group whenever the `parallel_group` tag differs from the
previous tool's tag. -/
def groupToolsAux : List Tool → List Tool → String → List (List Tool)
  | [], currentGroup, _ =>
    if currentGroup.isEmpty then [] else [currentGroup]
  | tool :: rest, currentGroup, lastParallelGroup =>
    let parallelGroup := tool.install.parallelGroup
    if parallelGroup ≠ lastParallelGroup ∧ ¬ currentGroup.isEmpty then
      currentGroup :: groupToolsAux rest [tool] parallelGroup
    else
      groupToolsAux rest (currentGroup ++ [tool]) parallelGroup

/-- Embeds `ToolInstaller.groupToolsByParallelGroup`
(internal/installer/tool_installer.go). -/
def groupToolsByParallelGroup (tools : List Tool) : List (List Tool) :=
  groupToolsAux tools [] ""

/-- The partition of a task list described by the specification (§3 Execution
Group): maximal contiguous runs of equal non-empty `parallel_group` tags, with
every empty-tag task a singleton group.  Used only to compare the code's
grouping against the spec's wording. -/
def specExecutionGroups : List Task → List (List Task)
  | [] => []
  | t :: rest =>
    let gs := specExecutionGroups rest
    if t.parallelGroup = "" then [t] :: gs
    else
      match gs with
      | (u :: g) :: gs' =>
        if u.parallelGroup = t.parallelGroup then (t :: u :: g) :: gs' else [t] :: gs
      | _ => [t] :: gs

/-- The `parallel_group` tag of a group of tools (its head's tag; `""` for an
empty group). -/
def groupTag (g : List Tool) : String :=
  ((g.head?).map (fun t => t.install.parallelGroup)).getD ""

/-- Environment of the tool installer: `stateHas n` is
`config.IsToolInstalled(state, n)`, `checkRun c` the exit-0 outcome of running
check command `c`, `installRun c` the success of running install command `c`
(`runInstallCommand`). -/
structure InstallEnv where
  stateHas : String → Bool
  checkRun : String → Bool
  installRun : String → Bool

/-- Embeds `ToolInstaller.isToolInstalled` (internal/installer/tool_installer.go):
an empty check means never installed; otherwise the state entry is trusted only
if the check still passes, and the check command decides. -/
def isToolInstalled (env : InstallEnv) (tool : Tool) : Bool :=
  if tool.check = "" then false
  else if env.stateHas tool.name && env.checkRun tool.check then true
  else env.checkRun tool.check

/-- Observable outcome of `ToolInstaller.installTool`: the returned error,
whether the install command was ever invoked, and whether the tool was marked
installed in the state. -/
structure InstallOutcome where
  error : Option String
  installInvoked : Bool
  markedInstalled : Bool
deriving DecidableEq, Inhabited

/-- Embeds `ToolInstaller.installTool` (internal/installer/tool_installer.go):
already-installed tools short-circuit to success without running the install
command; dry-run skips execution; a failed install is fatal only for required
tools, and success records the tool in the state. -/
def installTool (env : InstallEnv) (dryRun : Bool) (tool : Tool) : InstallOutcome :=
  if isToolInstalled env tool then ⟨none, false, false⟩
  else if dryRun then ⟨none, false, false⟩
  else if env.installRun tool.install.command then ⟨none, true, true⟩
  else if tool.required then
    ⟨some ("required tool " ++ tool.name ++ " failed"), true, false⟩
  else ⟨none, true, false⟩

/-- The fatal error `fmt.Errorf("required task failed: %s: %w", name, err)`
returned by `Execute`: it names the failed task and wraps its cause. -/
structure ExecError where
  taskName : String
  cause : FailInfo
deriving DecidableEq, Inhabited

/-- Environment of the parallel executor: the condition-check oracle, the
per-task per-attempt command oracle, and the per-task elapsed wall time. -/
structure ExecEnv where
  checkCond : String → Bool
  runs : Task → Nat → Option String × String
  elapsed : Task → Int

/-- The `TaskResult` a single task produces under an environment (the value of
`p.executeTask(ctx, task)`). -/
def execOne (env : ExecEnv) (t : Task) : TaskResult :=
  (executeTask env.checkCond (env.runs t) (env.elapsed t) t).1

/-- Embeds the sequential (`groupName == ""`) branch of `Execute`: tasks run
one at a time; a failed required task returns the fatal error at once (the
rest of the bucket never runs), any other result continues. -/
def execSequential (env : ExecEnv) : List Task → List TaskResult × Option ExecError
  | [] => ([], none)
  | t :: rest =>
    let r := execOne env t
    match r.error with
    | some f =>
      if t.required then ([r], some ⟨t.name, f⟩)
      else
        let s := execSequential env rest
        (r :: s.1, s.2)
    | none =>
      let s := execSequential env rest
      (r :: s.1, s.2)

/-- Embeds `ParallelExecutor.executeParallelGroup`
(internal/installer/parallel.go) at the level of recorded results: every task
of the group is executed (`wg.Wait()` joins them all) and `results[index]`
holds its result in input order.  The semaphore only bounds simultaneity and
does not affect the recorded results; it is modelled separately by
`SemStep`. -/
def executeParallelGroup (env : ExecEnv) (tasks : List Task) : List TaskResult :=
  tasks.map (execOne env)

/-- Embeds the post-group scan of `Execute` over a parallel group's results:
the first result that is both failed and required yields the fatal error. -/
def firstRequiredFailure : List TaskResult → Option ExecError
  | [] => none
  | r :: rest =>
    match r.error with
    | some f =>
      if r.task.required then some ⟨r.task.name, f⟩ else firstRequiredFailure rest
    | none => firstRequiredFailure rest

/-- Embeds the group loop of `ParallelExecutor.Execute`
(internal/installer/parallel.go) over an explicit group order (Go map
iteration order is unspecified, so theorems quantify over permutations of
`groupTasks tasks`).  Returns the accumulated `allResults` list together with
the returned error. -/
def execGroups (env : ExecEnv) : List (String × List Task) → List TaskResult × Option ExecError
  | [] => ([], none)
  | (groupName, gTasks) :: rest =>
    if groupName = "" then
      match execSequential env gTasks with
      | (rs, some e) => (rs, some e)
      | (rs, none) =>
        let s := execGroups env rest
        (rs ++ s.1, s.2)
    else
      let rs := executeParallelGroup env gTasks
      match firstRequiredFailure rs with
      | some e => (rs, some e)
      | none =>
        let s := execGroups env rest
        (rs ++ s.1, s.2)

/-- Embeds `ParallelExecutor.Execute` applied to a given iteration order of
the task groups. -/
def Execute (env : ExecEnv) (groupOrder : List (String × List Task)) :
    List TaskResult × Option ExecError :=
  execGroups env groupOrder

/-- Phase of one worker goroutine of `executeParallelGroup`: it waits to send
on the semaphore channel, runs its task while holding the slot, and releases
the slot on completion with one of the three outcomes. -/
inductive WorkerPhase where
  | waiting
  | running
  | doneOk
  | doneFailed
  | doneSkipped
deriving DecidableEq, Inhabited

/-- State of the semaphore system of one parallel group: the phase of each
worker and the number of tokens currently in the channel
(`make(chan struct{}, maxConcurrent)`). -/
structure SemState where
  workers : List WorkerPhase
  semCount : Nat
deriving DecidableEq, Inhabited

/-- Number of workers currently executing their task's command. -/
def runningCount (s : SemState) : Nat := s.workers.count .running

/-- Interleaving semantics of the semaphore pattern of
`executeParallelGroup`: `acquire` is the blocking send `semaphore <- struct{}{}`
(enabled only while the channel holds fewer than `maxConcurrent` tokens)
immediately before the worker runs its task, and `release` is the deferred
receive `<-semaphore` that runs when the task completes with any outcome
(success, failure, or skip). -/
inductive SemStep (maxConcurrent : Nat) : SemState → SemState → Prop
  | acquire (s : SemState) (i : Nat)
      (h : s.workers.get? i = some .waiting)
      (hs : s.semCount < maxConcurrent) :
      SemStep maxConcurrent s ⟨s.workers.set i .running, s.semCount + 1⟩
  | release (s : SemState) (i : Nat) (d : WorkerPhase)
      (h : s.workers.get? i = some .running)
      (hd : d = .doneOk ∨ d = .doneFailed ∨ d = .doneSkipped) :
      SemStep maxConcurrent s ⟨s.workers.set i d, s.semCount - 1⟩

/-- Start state of a parallel group of `n` workers: all waiting, empty
semaphore channel. -/
def semStart (n : Nat) : SemState := ⟨List.replicate n .waiting, 0⟩

/-- Names of all tools in input order (with multiplicity). -/
def toolNames (tools : List Tool) : List String := tools.map (fun t => t.name)

/-- Embeds the `graph` map built by `GetInstallOrder`
(internal/config/tools_config.go): `graph[dep]` lists, in input order, the
name of every tool declaring `dep` in its `depends_on` (once per
occurrence). -/
def depGraph (tools : List Tool) (dep : String) : List String :=
  (tools.map (fun t => (t.dependsOn.filter (fun x => x = dep)).map (fun _ => t.name))).flatten

/-- Embeds the `inDegree` map built by `GetInstallOrder`: for each tool name,
the number of its `depends_on` entries (summed over duplicate tool names, as
the Go `inDegree[tool.Name]++` accumulation does). -/
def inDegreeInit (tools : List Tool) (n : String) : Int :=
  ((tools.filter (fun t => t.name = n)).map (fun t => (t.dependsOn.length : Int))).sum

/-- Embeds the inner loop of `GetInstallOrder`:
`for _, dependent := range graph[current] { inDegree[dependent]--; if ... }` —
each edge decrements its target's in-degree and enqueues the target exactly
when the count reaches zero. -/
def processEdges : (String → Int) → List String → List String → (String → Int) × List String
  | deg, queue, [] => (deg, queue)
  | deg, queue, dependent :: rest =>
    let deg' := fun n => if n = dependent then deg n - 1 else deg n
    let queue' := if deg' dependent = 0 then queue ++ [dependent] else queue
    processEdges deg' queue' rest

/-- Embeds the Kahn worklist loop of `GetInstallOrder`.  The Go loop runs
until the queue is empty; `fuel` is a step bound used only to present the
loop as structural recursion, and `kahnFuel` below always exceeds the
possible number of iterations (each pop appends one name to `ordered`, and
names are enqueued at most once per seeding plus once per reaching in-degree
zero). -/
def kahnLoop (graph : String → List String) :
    Nat → List String → (String → Int) → List String → List String
  | 0, _, _, ordered => ordered
  | _ + 1, [], _, ordered => ordered
  | fuel + 1, current :: queue, deg, ordered =>
    let s := processEdges deg queue (graph current)
    kahnLoop graph fuel s.2 s.1 (ordered ++ [current])

/-- Step bound for `kahnLoop`; always strictly larger than the number of loop
iterations the Go code can perform. -/
def kahnFuel (tools : List Tool) (seed : List String) : Nat :=
  seed.length + tools.length + (tools.map (fun t => t.dependsOn.length)).sum + 1

/-- Embeds the `nameToTool` map of `GetInstallOrder`: Go map writes in input
order, so for duplicate names the last tool wins. -/
def nameToTool (tools : List Tool) (n : String) : Tool :=
  (tools.filter (fun t => t.name = n)).getLastD default

/-- Embeds `ToolsConfig.GetInstallOrder` (internal/config/tools_config.go).
`seed` is the iteration order of the Go `inDegree` map in
`for name, degree := range inDegree` — unspecified by Go, hence an explicit
parameter; it ranges over permutations of the (distinct) tool names.  Returns
`none` exactly when the produced order is shorter than the input
(`circular dependency detected`). -/
def GetInstallOrder (seed : List String) (tools : List Tool) : Option (List Tool) :=
  let inDeg := inDegreeInit tools
  let queue0 := seed.filter (fun n => inDeg n = 0)
  let ordered := kahnLoop (depGraph tools) (kahnFuel tools seed) queue0 inDeg []
  if ordered.length = tools.length then
    some (ordered.map (nameToTool tools))
  else none

/-- All `depends_on` entries of the tools named `n` (the dependency edges into
`n`, with multiplicity). -/
def depsOf (tools : List Tool) (n : String) : List String :=
  ((tools.filter (fun t => t.name = n)).map (fun t => t.dependsOn)).flatten

/-- `depRel tools d n` holds when `d` is declared as a dependency of the tool
named `n`. -/
def depRel (tools : List Tool) (d n : String) : Prop := d ∈ depsOf tools n

/-- The configuration contains a dependency cycle: some name reaches itself
through a nonempty chain of `depends_on` edges. -/
def hasDepCycle (tools : List Tool) : Prop :=
  ∃ n, Relation.TransGen (depRel tools) n n

/-- The list `l` of names respects the dependency order: every name in `l`
has all its `depends_on` entries strictly earlier in `l`. -/
def depsRespected (tools : List Tool) (l : List String) : Prop :=
  ∀ pre n post, l = pre ++ n :: post → ∀ d ∈ depsOf tools n, d ∈ pre

/-!  Concrete configurations used by witness and counterexample theorems. -/

/-- A state holding two installed tools and two completed setup tasks.  Against
a config that now lists only one tool, the progress helpers overflow 100. -/
def staleState : State :=
  { installed :=
      some [("git", ⟨"2.43.0", "/usr/bin/git", 0⟩), ("node", ⟨"20.0", "/usr/local/bin/node", 0⟩)]
    configured := some [("shell", true), ("editor", true)]
    lastInstall := 0
    lastSetup := 0
    version := "0.4.0" }

/-- A task configured with `retry_count: 3` and no condition. -/
def retryTask : Task := ⟨"Retry Task", "exit 1", "", false, 0, 3, ""⟩

/-- Command oracle whose every attempt fails. -/
def alwaysFailRun : Nat → Option String × String := fun _ => (some "exit status 1", " output ")

/-- A required tool with a non-empty check command. -/
def gitTool : Tool := ⟨"git", "Git VCS", "command -v git", ⟨"brew install git", "core", 0⟩, [], true⟩

/-- Installer environment in which every check command passes while the state
store is empty and installs would fail. -/
def passingEnv : InstallEnv := ⟨fun _ => false, fun _ => true, fun _ => false⟩

/-- A task whose condition command fails, so it is skipped. -/
def skippedTask : Task := ⟨"Conditional Task", "echo x", "", false, 0, 0, "false"⟩

/-- Results of a run with one success, one failure and one skip. -/
def demoResults : List TaskResult :=
  [⟨⟨"Task 1", "echo 1", "", true, 0, 0, ""⟩, none, "ok", 100⟩,
   ⟨⟨"Task 2", "exit 1", "", false, 0, 0, ""⟩, some ⟨some "exit status 1", ""⟩, "", 50⟩,
   ⟨skippedTask, none, "Skipped (condition not met)", 1⟩]

/-- Tagged `g1`, first of the interrupted pair. -/
def taskB : Task := ⟨"B", "echo B", "g1", false, 0, 0, ""⟩

/-- Tagged `g2`, interrupts the `g1` run. -/
def taskD : Task := ⟨"D", "echo D", "g2", false, 0, 0, ""⟩

/-- Tagged `g1` again, separated from `taskB` by `taskD`. -/
def taskE : Task := ⟨"E", "echo E", "g1", false, 0, 0, ""⟩

/-- A required task whose command always fails, in parallel group `par`. -/
def reqFailTask : Task := ⟨"req", "exit 1", "par", true, 0, 0, ""⟩

/-- An optional task whose command succeeds, in parallel group `par`. -/
def okTask : Task := ⟨"ok", "echo ok", "par", false, 0, 0, ""⟩

/-- A sequential task scheduled after the `par` group. -/
def afterTask : Task := ⟨"after", "echo after", "", true, 0, 0, ""⟩

/-- Executor environment: conditions pass, the task named `req` always fails,
every other command succeeds. -/
def demoExecEnv : ExecEnv :=
  ⟨fun _ => true,
   fun t _ => if t.name = "req" then (some "exit status 1", "bad") else (none, "ok"),
   fun _ => 1⟩

/-- Tool `A` with no dependencies. -/
def toolA : Tool := ⟨"A", "", "", ⟨"", "", 0⟩, [], true⟩

/-- Tool `B` depending on `A`. -/
def toolB : Tool := ⟨"B", "", "", ⟨"", "", 0⟩, ["A"], true⟩

/-- An acyclic two-tool configuration: `B` depends on `A`. -/
def demoChain : List Tool := [toolA, toolB]

/-- Tool `A` of the cyclic pair. -/
def cycToolA : Tool := ⟨"A", "", "", ⟨"", "", 0⟩, ["B"], true⟩

/-- Tool `B` of the cyclic pair. -/
def cycToolB : Tool := ⟨"B", "", "", ⟨"", "", 0⟩, ["A"], true⟩

/-- A two-tool configuration with a dependency cycle `A ↔ B`. -/
def demoCycle : List Tool := [cycToolA, cycToolB]

/-- Tool `A` with no dependencies and no tie to `B`. -/
def freeToolA : Tool := ⟨"A", "", "", ⟨"", "", 0⟩, [], true⟩

/-- Tool `B` with no dependencies and no tie to `A`. -/
def freeToolB : Tool := ⟨"B", "", "", ⟨"", "", 0⟩, [], true⟩

/-- Two independent tools: both seed orders of the in-degree map are possible
iteration orders of the same configuration. -/
def demoFree : List Tool := [freeToolA, freeToolB]

/-- Occurrences of a name in a list (proof-side multiplicity counter). -/
def countName (l : List String) (n : String) : Nat :=
  (l.filter (fun x => x = n)).length

/-- The `ordered` list `GetInstallOrder` builds: the Kahn loop run from the
seeded queue, the initial in-degrees and an empty output. -/
def kahnRun (seed : List String) (tools : List Tool) : List String :=
  kahnLoop (depGraph tools) (kahnFuel tools seed)
    (seed.filter (fun n => inDegreeInit tools n = 0)) (inDegreeInit tools) []

/-- Position of the first occurrence of a name in a list (proof-side). -/
def rankIn (l : List String) (x : String) : Nat :=
  (l.takeWhile (fun y => ¬ y = x)).length

/-!  Theorems. -/

/-- C8: `LoadState` never fails hard on a missing store: whenever the state
file does not exist, it returns a fresh empty `State` whose installed and
configured maps are both initialized and empty, and no error. -/
theorem loadState_missing_store (parse : String → Option State) :
    LoadState none parse = .ok freshState ∧
    freshState.installed = some [] ∧ freshState.configured = some [] :=
  ⟨rfl, rfl, rfl⟩

/-- C9: evaluation at a failing input.  With two installed tools recorded in
the state but a total count of 1 (a tool was removed from the config), both
progress helpers return 200, outside the documented range 0–100. -/
theorem getInstallProgress_exceeds_100 :
    GetInstallProgress staleState 1 = 200 ∧
    GetSetupProgress staleState 1 = 200 ∧
    ¬ ((200 : Int) ≤ 100) := by
  refine ⟨?_, ?_, by decide⟩ <;> decide

/-- C7: a tool whose check command exits 0 is treated as already satisfied by
`installTool`: it returns success without invoking the install command (and
without touching the state). -/
theorem installTool_check_passes_skips_install (env : InstallEnv) (dryRun : Bool) (tool : Tool)
    (hcheck : tool.check ≠ "") (hpass : env.checkRun tool.check = true) :
    installTool env dryRun tool = ⟨none, false, false⟩ := by
  have hinst : isToolInstalled env tool = true := by
    unfold isToolInstalled
    rw [if_neg hcheck, hpass]
    cases env.stateHas tool.name <;> simp
  unfold installTool
  rw [hinst]
  simp

/-- Witness for C7 at a concrete tool and environment. -/
theorem installTool_check_passes_skips_install_witness :
    installTool passingEnv false gitTool = ⟨none, false, false⟩ :=
  installTool_check_passes_skips_install passingEnv false gitTool (by decide) rfl

/-- One statistics step increments `successfulTasks` exactly on a nil
error. -/
theorem statsStep_successful (acc : StatsAcc) (r : TaskResult) :
    (statsStep acc r).successfulTasks
      = acc.successfulTasks + (if r.error = none then 1 else 0) := by
  unfold statsStep
  cases r.error <;> dsimp <;> split <;> simp

/-- One statistics step increments `failedTasks` exactly on a non-nil
error. -/
theorem statsStep_failed (acc : StatsAcc) (r : TaskResult) :
    (statsStep acc r).failedTasks
      = acc.failedTasks + (if r.error = none then 0 else 1) := by
  unfold statsStep
  cases r.error <;> dsimp <;> split <;> simp

/-- The statistics loop counts nil-error results as successes and non-nil
ones as failures, on top of any starting accumulator. -/
theorem statsFold_counts (results : List TaskResult) (acc : StatsAcc) :
    (results.foldl statsStep acc).successfulTasks
      = acc.successfulTasks + (results.filter (fun r => r.error = none)).length ∧
    (results.foldl statsStep acc).failedTasks
      = acc.failedTasks + (results.filter (fun r => ¬ r.error = none)).length := by
  induction results generalizing acc with
  | nil => simp
  | cons r rest ih =>
    rcases ih (statsStep acc r) with ⟨ihs, ihf⟩
    constructor
    · rw [List.foldl_cons, ihs, statsStep_successful]
      by_cases h : r.error = none
      all_goals simp [h, List.filter_cons]
      all_goals omega
    · rw [List.foldl_cons, ihf, statsStep_failed]
      by_cases h : r.error = none
      all_goals simp [h, List.filter_cons]
      all_goals omega

/-- The nil-error and non-nil-error results partition the result list. -/
theorem length_filter_error_partition (l : List TaskResult) :
    (l.filter (fun r => r.error = none)).length
      + (l.filter (fun r => ¬ r.error = none)).length = l.length := by
  induction l with
  | nil => rfl
  | cons r t ih =>
    rw [List.filter_cons, List.filter_cons]
    by_cases h : r.error = none
    · rw [if_pos (by simpa using h), if_neg (by simpa using h)]
      simp only [List.length_cons]
      omega
    · rw [if_neg (by simpa using h), if_pos (by simpa using h)]
      simp only [List.length_cons]
      omega

/-- C10: `GetTaskStatistics` reports `TotalTasks` equal to the number of
results, `SuccessfulTasks` counts exactly the nil-error results,
`FailedTasks` the rest, so successes and failures always sum to the total;
and a result skipped by `executeTask` (condition not met) carries a nil error,
hence is counted among the successes — never as a separate category. -/
theorem getTaskStatistics_partition (results : List TaskResult) :
    (GetTaskStatistics results).totalTasks = results.length ∧
    (GetTaskStatistics results).successfulTasks
      = (results.filter (fun r => r.error = none)).length ∧
    (GetTaskStatistics results).failedTasks
      = (results.filter (fun r => ¬ r.error = none)).length ∧
    (GetTaskStatistics results).successfulTasks + (GetTaskStatistics results).failedTasks
      = (GetTaskStatistics results).totalTasks ∧
    (∀ checkCond run elapsed task,
      task.condition ≠ "" → checkCond task.condition = false →
        (executeTask checkCond run elapsed task).1.error = none) := by
  rcases statsFold_counts results ⟨0, 0, 0, 0, ""⟩ with ⟨hs, hf⟩
  refine ⟨rfl, ?_, ?_, ?_, ?_⟩
  · simpa using hs
  · simpa using hf
  · show (results.foldl statsStep ⟨0, 0, 0, 0, ""⟩).successfulTasks
        + (results.foldl statsStep ⟨0, 0, 0, 0, ""⟩).failedTasks = results.length
    rw [hs, hf]
    simpa using length_filter_error_partition results
  · intro checkCond run elapsed task h1 h2
    unfold executeTask
    rw [if_pos ⟨h1, h2⟩]

/-- Witness for C10 on a concrete results list containing a success, a
failure and a skip. -/
theorem getTaskStatistics_partition_witness :
    (GetTaskStatistics demoResults).totalTasks = 3 ∧
    (GetTaskStatistics demoResults).successfulTasks = 2 ∧
    (GetTaskStatistics demoResults).failedTasks = 1 ∧
    (executeTask (fun _ => false) alwaysFailRun 1 skippedTask).1.error = none := by
  have h := getTaskStatistics_partition demoResults
  refine ⟨h.1.trans (by decide), h.2.1.trans (by decide), h.2.2.1.trans (by decide), ?_⟩
  exact h.2.2.2.2 (fun _ => false) alwaysFailRun 1 skippedTask (by decide) rfl

/-- Equation for the retry loop when the head attempt succeeds. -/
theorem runAttemptLoop_cons_success (run : Nat → Option String × String)
    (i : Nat) (rest : List Nat) (le0 : Option String) (out0 : String)
    (h : (run i).1 = none) :
    runAttemptLoop run (i :: rest) le0 out0
      = ⟨1, if 0 < i then [i] else [], .ok (run i).2⟩ := by
  simp only [runAttemptLoop, h]

/-- Equation for the retry loop when the head attempt fails. -/
theorem runAttemptLoop_cons_fail (run : Nat → Option String × String)
    (i : Nat) (rest : List Nat) (le0 : Option String) (out0 : String) (m : String)
    (h : (run i).1 = some m) :
    runAttemptLoop run (i :: rest) le0 out0
      = ⟨(runAttemptLoop run rest (some m) (run i).2).attempts + 1,
         (if 0 < i then [i] else []) ++ (runAttemptLoop run rest (some m) (run i).2).sleeps,
         (runAttemptLoop run rest (some m) (run i).2).outcome⟩ := by
  simp only [runAttemptLoop, h]

/-- The retry loop makes no more attempts than it has attempt indices. -/
theorem runAttemptLoop_attempts_le (run : Nat → Option String × String) :
    ∀ (l : List Nat) (le0 : Option String) (out0 : String),
      (runAttemptLoop run l le0 out0).attempts ≤ l.length := by
  intro l
  induction l with
  | nil => intro le0 out0; simp [runAttemptLoop]
  | cons i rest ih =>
    intro le0 out0
    cases h : (run i).1 with
    | none =>
      rw [runAttemptLoop_cons_success run i rest le0 out0 h]
      exact Nat.succ_le_succ (Nat.zero_le _)
    | some m =>
      rw [runAttemptLoop_cons_fail run i rest le0 out0 m h]
      exact Nat.succ_le_succ (ih (some m) (run i).2)

/-- The sleeps performed are exactly the positive attempt indices among the
attempts actually made, in order. -/
theorem runAttemptLoop_sleeps (run : Nat → Option String × String) :
    ∀ (l : List Nat) (le0 : Option String) (out0 : String),
      (runAttemptLoop run l le0 out0).sleeps
        = (l.take (runAttemptLoop run l le0 out0).attempts).filter (fun i => 0 < i) := by
  intro l
  induction l with
  | nil => intro le0 out0; simp [runAttemptLoop]
  | cons i rest ih =>
    intro le0 out0
    cases h : (run i).1 with
    | none =>
      rw [runAttemptLoop_cons_success run i rest le0 out0 h]
      show (if 0 < i then [i] else []) = ((i :: rest).take 1).filter (fun i => 0 < i)
      rw [List.take_succ_cons, List.take_zero, List.filter_cons]
      cases hd : decide (0 < i) <;> simp_all
    | some m =>
      rw [runAttemptLoop_cons_fail run i rest le0 out0 m h]
      show (if 0 < i then [i] else []) ++ (runAttemptLoop run rest (some m) (run i).2).sleeps
          = ((i :: rest).take ((runAttemptLoop run rest (some m) (run i).2).attempts + 1)).filter
              (fun i => 0 < i)
      rw [List.take_succ_cons, List.filter_cons, ih (some m) (run i).2]
      cases hd : decide (0 < i) <;> simp_all

/-- Every attempt before the last one made failed: the loop stops at the
first success. -/
theorem runAttemptLoop_failures_before_last (run : Nat → Option String × String) :
    ∀ (l : List Nat) (le0 : Option String) (out0 : String),
      ∀ x ∈ l.take ((runAttemptLoop run l le0 out0).attempts - 1), (run x).1 ≠ none := by
  intro l
  induction l with
  | nil => intro le0 out0 x hx; simp [runAttemptLoop] at hx
  | cons i rest ih =>
    intro le0 out0 x hx
    cases h : (run i).1 with
    | none =>
      rw [runAttemptLoop_cons_success run i rest le0 out0 h] at hx
      simp at hx
    | some m =>
      rw [runAttemptLoop_cons_fail run i rest le0 out0 m h] at hx
      simp only [Nat.add_sub_cancel] at hx
      rcases Nat.eq_zero_or_pos (runAttemptLoop run rest (some m) (run i).2).attempts with h0 | h0
      · rw [h0] at hx; simp at hx
      · obtain ⟨k, hk⟩ : ∃ k, (runAttemptLoop run rest (some m) (run i).2).attempts = k + 1 :=
          ⟨_, (Nat.succ_pred_eq_of_pos h0).symm⟩
        rw [hk, List.take_succ_cons] at hx
        rcases List.mem_cons.mp hx with hx | hx
        · subst hx; simp [h]
        · exact ih (some m) (run i).2 x (by rw [hk, Nat.add_sub_cancel]; exact hx)

/-- When every attempt fails, the loop exhausts its budget and reports the
last attempt's error and output. -/
theorem runAttemptLoop_all_fail (run : Nat → Option String × String) :
    ∀ (l : List Nat) (le0 : Option String) (out0 : String),
      (∀ x ∈ l, (run x).1 ≠ none) →
      (runAttemptLoop run l le0 out0).attempts = l.length ∧
      ∀ x, l.getLast? = some x →
        (runAttemptLoop run l le0 out0).outcome = .error ((run x).1, (run x).2) := by
  intro l
  induction l with
  | nil =>
    intro le0 out0 _
    exact ⟨rfl, by intro x hx; simp at hx⟩
  | cons i rest ih =>
    intro le0 out0 hfail
    cases h : (run i).1 with
    | none => exact absurd h (hfail i (by simp))
    | some m =>
      rcases ih (some m) (run i).2 (fun x hx => hfail x (by simp [hx])) with ⟨ha, ho⟩
      rw [runAttemptLoop_cons_fail run i rest le0 out0 m h]
      refine ⟨by simp [ha], ?_⟩
      intro x hx
      cases rest with
      | nil =>
        have hx2 : i = x := by simpa using hx
        subst hx2
        show (runAttemptLoop run [] (some m) (run i).2).outcome = _
        simp [runAttemptLoop, h]
      | cons j rest' =>
        exact ho x ((List.getLast?_cons_cons).symm.trans hx)

/-- The positive numbers in `List.range a` are `List.range a` without its
head. -/
theorem filter_pos_range (a : Nat) :
    (List.range a).filter (fun i => 0 < i) = (List.range a).drop 1 := by
  cases a with
  | zero => rfl
  | succ n =>
    rw [List.range_succ_eq_map]
    simp only [List.drop_succ_cons, List.drop_zero, List.filter_cons]
    norm_num

/-- Attempt count and sleeps of `executeTask` when the task is not skipped:
those of the retry loop over `List.range (attemptsBudget retryCount)`. -/
theorem executeTask_trace (checkCond : String → Bool)
    (run : Nat → Option String × String) (elapsed : Int) (task : Task)
    (h : ¬ (task.condition ≠ "" ∧ checkCond task.condition = false)) :
    (executeTask checkCond run elapsed task).2.1
        = (runAttemptLoop run (List.range (attemptsBudget task.retryCount)) none "").attempts ∧
    (executeTask checkCond run elapsed task).2.2
        = (runAttemptLoop run (List.range (attemptsBudget task.retryCount)) none "").sleeps := by
  unfold executeTask
  rw [if_neg h]
  cases h2 : (runAttemptLoop run (List.range (attemptsBudget task.retryCount)) none "").outcome with
  | ok o => exact ⟨by simp [h2], by simp [h2]⟩
  | error p =>
    obtain ⟨le, out⟩ := p
    exact ⟨by simp [h2], by simp [h2]⟩

/-- Result of `executeTask` when the task is not skipped and the retry loop
ends in failure: the error wraps the last error and the trimmed last output,
and the raw last output is recorded. -/
theorem executeTask_of_outcome_error (checkCond : String → Bool)
    (run : Nat → Option String × String) (elapsed : Int) (task : Task)
    (le : Option String) (out : String)
    (h : ¬ (task.condition ≠ "" ∧ checkCond task.condition = false))
    (h2 : (runAttemptLoop run (List.range (attemptsBudget task.retryCount)) none "").outcome
        = .error (le, out)) :
    (executeTask checkCond run elapsed task).1 = ⟨task, some ⟨le, out.trim⟩, out, elapsed⟩ := by
  unfold executeTask
  rw [if_neg h]
  simp [h2]

/-- C5: `executeTask` makes at most `max(retry_count, 1)` attempts, stops at
the first success (every non-final attempt failed), and its inter-attempt
sleeps are the strictly increasing, attempt-proportional sequence
`1, 2, …, attempts-1` seconds.  With `retry_count = 3`, no condition and an
always-failing command it attempts exactly 3 times, sleeps 1 then 2 seconds,
and the recorded failure carries the last attempt's wrapped error and its
output. -/
theorem executeTask_retry_policy (checkCond : String → Bool)
    (run : Nat → Option String × String) (elapsed : Int) (task : Task) :
    (executeTask checkCond run elapsed task).2.1 ≤ (max task.retryCount 1).toNat ∧
    (executeTask checkCond run elapsed task).2.2
      = (List.range (executeTask checkCond run elapsed task).2.1).drop 1 ∧
    List.Pairwise (· < ·) (executeTask checkCond run elapsed task).2.2 ∧
    (∀ i, i + 1 < (executeTask checkCond run elapsed task).2.1 → (run i).1 ≠ none) ∧
    (task.retryCount = 3 → task.condition = "" → (∀ i, (run i).1 ≠ none) →
      (executeTask checkCond run elapsed task).2.1 = 3 ∧
      (executeTask checkCond run elapsed task).2.2 = [1, 2] ∧
      (executeTask checkCond run elapsed task).1.error
        = some ⟨(run 2).1, (run 2).2.trim⟩ ∧
      (executeTask checkCond run elapsed task).1.output = (run 2).2) := by
  have hbudget : attemptsBudget task.retryCount ≤ (max task.retryCount 1).toNat := by
    unfold attemptsBudget
    rcases eq_or_ne task.retryCount 0 with h | h
    · rw [if_pos h, h]; decide
    · rw [if_neg h]
      exact Int.toNat_le_toNat (le_max_left _ _)
  by_cases hskip : task.condition ≠ "" ∧ checkCond task.condition = false
  · have he : executeTask checkCond run elapsed task
        = (⟨task, none, "Skipped (condition not met)", elapsed⟩, 0, []) := by
      unfold executeTask
      rw [if_pos hskip]
    rw [he]
    refine ⟨Nat.zero_le _, rfl, List.Pairwise.nil, ?_, ?_⟩
    · intro i hi
      simp at hi
    · intro _ hc _
      exact absurd hc hskip.1
  · rcases executeTask_trace checkCond run elapsed task hskip with ⟨hatt, hsl⟩
    have hle : (runAttemptLoop run (List.range (attemptsBudget task.retryCount)) none "").attempts
        ≤ attemptsBudget task.retryCount := by
      simpa using runAttemptLoop_attempts_le run (List.range (attemptsBudget task.retryCount)) none ""
    have hsleeps : (runAttemptLoop run (List.range (attemptsBudget task.retryCount)) none "").sleeps
        = (List.range
            (runAttemptLoop run (List.range (attemptsBudget task.retryCount)) none "").attempts).drop
              1 := by
      rw [runAttemptLoop_sleeps run (List.range (attemptsBudget task.retryCount)) none ""]
      rw [List.take_range, Nat.min_eq_left hle]
      exact filter_pos_range _
    refine ⟨?_, ?_, ?_, ?_, ?_⟩
    · rw [hatt]; exact le_trans hle hbudget
    · rw [hsl, hatt, hsleeps]
    · rw [hsl, hsleeps]
      exact (List.pairwise_lt_range _).sublist (List.drop_sublist _ _)
    · intro i hi
      rw [hatt] at hi
      have hmem : i ∈ (List.range (attemptsBudget task.retryCount)).take
          ((runAttemptLoop run (List.range (attemptsBudget task.retryCount)) none "").attempts
            - 1) := by
        rw [List.take_range, Nat.min_eq_left (by omega)]
        exact List.mem_range.mpr (by omega)
      exact runAttemptLoop_failures_before_last run _ none "" i hmem
    · intro hrc _ hfail
      have hb : attemptsBudget task.retryCount = 3 := by
        unfold attemptsBudget; rw [hrc]; decide
      rcases runAttemptLoop_all_fail run (List.range (attemptsBudget task.retryCount)) none ""
          (fun x _ => hfail x) with ⟨ha, ho⟩
      have ha3 : (runAttemptLoop run (List.range (attemptsBudget task.retryCount)) none "").attempts
          = 3 := by
        rw [ha, hb]; decide
      have hlast : (List.range (attemptsBudget task.retryCount)).getLast? = some 2 := by
        rw [hb]; decide
      have hout : (runAttemptLoop run (List.range (attemptsBudget task.retryCount)) none "").outcome
          = .error ((run 2).1, (run 2).2) := ho 2 hlast
      have he := executeTask_of_outcome_error checkCond run elapsed task (run 2).1 (run 2).2
        hskip hout
      refine ⟨by rw [hatt, ha3], ?_, by rw [he], by rw [he]⟩
      rw [hsl, hsleeps, ha3]
      decide

/-- Witness for C5: the always-failing command with `retry_count = 3` is
attempted exactly 3 times with sleeps of 1 then 2 seconds, and the recorded
failure carries the final attempt's error and trimmed output. -/
theorem executeTask_retry_policy_witness :
    (executeTask (fun _ => true) alwaysFailRun 0 retryTask).2.1 = 3 ∧
    (executeTask (fun _ => true) alwaysFailRun 0 retryTask).2.2 = [1, 2] ∧
    (executeTask (fun _ => true) alwaysFailRun 0 retryTask).1.error
      = some ⟨(alwaysFailRun 2).1, (alwaysFailRun 2).2.trim⟩ ∧
    (executeTask (fun _ => true) alwaysFailRun 0 retryTask).1.output = (alwaysFailRun 2).2 :=
  (executeTask_retry_policy (fun _ => true) alwaysFailRun 0 retryTask).2.2.2.2
    rfl rfl (fun i => by simp [alwaysFailRun])

/-- Counting an element of a list after setting one position: the new value is
counted in, the old value counted out. -/
theorem count_set_phase (l : List WorkerPhase) (i : Nat) (a b c : WorkerPhase)
    (h : l.get? i = some b) :
    (l.set i a).count c + (if b = c then 1 else 0)
      = l.count c + (if a = c then 1 else 0) := by
  induction l generalizing i with
  | nil => simp at h
  | cons x t ih =>
    cases i with
    | zero =>
      have hx : x = b := by simpa using h
      subst hx
      simp only [List.set_cons_zero, List.count_cons]
      by_cases hac : a = c
      all_goals by_cases hbc : x = c
      all_goals simp [hac, hbc]
    | succ j =>
      have ht : t.get? j = some b := by simpa using h
      simp only [List.set_cons_succ, List.count_cons]
      have := ih j ht
      by_cases hxc : x = c
      all_goals simp [hxc]
      all_goals omega

/-- Invariant of the semaphore system: the number of running workers always
equals the number of tokens in the channel, and never exceeds the concurrency
limit. -/
theorem semStep_invariant (maxConcurrent : Nat) (s s' : SemState)
    (hinv : runningCount s = s.semCount ∧ s.semCount ≤ maxConcurrent)
    (hstep : SemStep maxConcurrent s s') :
    runningCount s' = s'.semCount ∧ s'.semCount ≤ maxConcurrent := by
  rcases hinv with ⟨hrun, hle⟩
  cases hstep with
  | acquire i h hs =>
    have hcount := count_set_phase s.workers i .running .waiting .running h
    simp at hcount
    unfold runningCount at hrun ⊢
    constructor
    · show (s.workers.set i .running).count .running = s.semCount + 1
      omega
    · exact hs
  | release i d h hd =>
    have hcount := count_set_phase s.workers i d .running .running h
    have hdr : ¬ (d = WorkerPhase.running) := by
      rcases hd with hd | hd | hd
      all_goals subst hd
      all_goals decide
    simp [hdr] at hcount
    have hpos : 1 ≤ s.workers.count .running := by
      have hmem : WorkerPhase.running ∈ s.workers := List.get?_mem h
      exact List.count_pos_iff.mpr hmem
    unfold runningCount at hrun ⊢
    constructor
    · show (s.workers.set i d).count .running = s.semCount - 1
      omega
    · show s.semCount - 1 ≤ maxConcurrent
      omega

/-- C6: in any state the semaphore system of a parallel group can reach —
every worker acquires a channel slot before running its command and releases
it on completion with any outcome — the number of simultaneously running
workers equals the channel occupancy and never exceeds `maxConcurrent`,
regardless of the group's size. -/
theorem semaphore_bounds_concurrency (maxConcurrent n : Nat) (s : SemState)
    (hreach : Relation.ReflTransGen (SemStep maxConcurrent) (semStart n) s) :
    runningCount s = s.semCount ∧ runningCount s ≤ maxConcurrent := by
  have h : runningCount s = s.semCount ∧ s.semCount ≤ maxConcurrent := by
    induction hreach with
    | refl =>
      constructor
      · show (List.replicate n WorkerPhase.waiting).count .running = 0
        rw [List.count_replicate]
        simp
      · exact Nat.zero_le _
    | tail _ hstep ih => exact semStep_invariant maxConcurrent _ _ ih hstep
  exact ⟨h.1, h.1 ▸ h.2⟩

/-- Witness for C6: with limit 2 and a 5-worker group, after two acquires the
reached state has exactly 2 running workers, within the limit. -/
theorem semaphore_bounds_concurrency_witness :
    runningCount ⟨[.running, .running, .waiting, .waiting, .waiting], 2⟩ = 2 ∧
    runningCount ⟨[.running, .running, .waiting, .waiting, .waiting], 2⟩ ≤ 2 := by
  have h0 : SemStep 2 (semStart 5)
      ⟨((semStart 5).workers).set 0 .running, (semStart 5).semCount + 1⟩ :=
    SemStep.acquire (semStart 5) 0 (by decide) (by decide)
  have h1 : SemStep 2 (⟨((semStart 5).workers).set 0 .running, (semStart 5).semCount + 1⟩)
      ⟨[.running, .running, .waiting, .waiting, .waiting], 2⟩ := by
    have h := @SemStep.acquire 2
      ⟨((semStart 5).workers).set 0 .running, (semStart 5).semCount + 1⟩ 1 (by decide) (by decide)
    simpa using h
  exact semaphore_bounds_concurrency 2 5 _
    (Relation.ReflTransGen.tail (Relation.ReflTransGen.tail Relation.ReflTransGen.refl h0) h1)

/-- Looking a key up after inserting a task into its bucket. -/
theorem lookupGroup_insertGroup (gs : List (String × List Task)) (k q : String) (t : Task) :
    lookupGroup (insertGroup gs k t) q
      = if k = q then some ((lookupGroup gs k).getD [] ++ [t]) else lookupGroup gs q := by
  induction gs with
  | nil =>
    by_cases h : k = q
    all_goals simp [insertGroup, lookupGroup, h]
  | cons p rest ih =>
    obtain ⟨k0, ts0⟩ := p
    by_cases h0 : k0 = k
    · subst h0
      by_cases hq : k0 = q
      all_goals simp [insertGroup, lookupGroup, hq]
    · by_cases hq : k0 = q
      · subst hq
        have hkq : ¬ (k = k0) := fun hc => h0 hc.symm
        simp [insertGroup, lookupGroup, h0, hkq]
      · simp [insertGroup, lookupGroup, h0, hq, ih]

/-- The accumulated fold of `groupTasks`: a key's bucket is its bucket in the
accumulator followed by the matching tasks, in input order. -/
theorem lookupGroup_foldl (tasks : List Task) (gs : List (String × List Task)) (k : String) :
    lookupGroup (tasks.foldl (fun acc t => insertGroup acc t.parallelGroup t) gs) k
      = match lookupGroup gs k with
        | some l => some (l ++ tasks.filter (fun t => t.parallelGroup = k))
        | none =>
          if (tasks.filter (fun t => t.parallelGroup = k)).isEmpty then none
          else some (tasks.filter (fun t => t.parallelGroup = k)) := by
  induction tasks generalizing gs with
  | nil =>
    cases hl : lookupGroup gs k
    all_goals simp [hl]
  | cons t rest ih =>
    rw [List.foldl_cons, ih (insertGroup gs t.parallelGroup t)]
    rw [lookupGroup_insertGroup gs t.parallelGroup k t]
    by_cases hk : t.parallelGroup = k
    · rw [if_pos hk]
      cases hl : lookupGroup gs k
      · subst hk
        simp [hl, List.filter_cons]
      · subst hk
        simp [hl, List.filter_cons]
    · rw [if_neg hk]
      cases hl : lookupGroup gs k
      all_goals simp [hl, List.filter_cons, hk]

/-- Flattening the installer's contiguous grouping returns the input list. -/
theorem groupToolsAux_flatten :
    ∀ (rest current : List Tool) (last : String),
      (groupToolsAux rest current last).flatten = current ++ rest := by
  intro rest
  induction rest with
  | nil =>
    intro current last
    by_cases h : current.isEmpty
    · rw [List.isEmpty_iff] at h
      simp [groupToolsAux, h]
    · simp [groupToolsAux, h]
  | cons tool rest ih =>
    intro current last
    by_cases h : tool.install.parallelGroup ≠ last ∧ ¬ current.isEmpty
    · simp only [groupToolsAux, if_pos h, List.flatten_cons, ih]
      simp
    · simp only [groupToolsAux, if_neg h, ih]
      simp

/-- Every group the installer's grouping emits is nonempty and internally
constant in tag; the invariant carries the current partial group's common
tag. -/
theorem groupToolsAux_groups :
    ∀ (rest current : List Tool) (last : String),
      (∀ a ∈ current, a.install.parallelGroup = last) →
      ∀ g ∈ groupToolsAux rest current last,
        g ≠ [] ∧ ∀ a ∈ g, ∀ b ∈ g, a.install.parallelGroup = b.install.parallelGroup := by
  intro rest
  induction rest with
  | nil =>
    intro current last hcur g hg
    by_cases h : current.isEmpty
    · simp [groupToolsAux, h] at hg
    · simp only [groupToolsAux, if_neg h, List.mem_singleton] at hg
      subst hg
      refine ⟨fun hc => h (by simp [hc]), ?_⟩
      intro a ha b hb
      rw [hcur a ha, hcur b hb]
  | cons tool rest ih =>
    intro current last hcur g hg
    by_cases h : tool.install.parallelGroup ≠ last ∧ ¬ current.isEmpty
    · simp only [groupToolsAux, if_pos h, List.mem_cons] at hg
      rcases hg with hg | hg
      · subst hg
        refine ⟨fun hc => h.2 (by simp [hc]), ?_⟩
        intro a ha b hb
        rw [hcur a ha, hcur b hb]
      · exact ih [tool] tool.install.parallelGroup (by simp) g hg
    · simp only [groupToolsAux, if_neg h] at hg
      rcases not_and_or.mp h with h1 | h2
      · have hpg : tool.install.parallelGroup = last := not_not.mp h1
        refine ih (current ++ [tool]) tool.install.parallelGroup ?_ g hg
        intro a ha
        rcases List.mem_append.mp ha with ha | ha
        · rw [hcur a ha, hpg]
        · simp only [List.mem_singleton] at ha
          subst ha
          rfl
      · have hce : current = [] := List.isEmpty_iff.mp (not_not.mp h2)
        subst hce
        refine ih [tool] tool.install.parallelGroup (by simp) g ?_
        simpa using hg

/-- The first emitted group starts with the head of the current partial
group. -/
theorem groupToolsAux_head :
    ∀ (rest current : List Tool) (last : String), current ≠ [] →
      ∃ g gs, groupToolsAux rest current last = g :: gs ∧ g.head? = current.head? := by
  intro rest
  induction rest with
  | nil =>
    intro current last hc
    refine ⟨current, [], ?_, rfl⟩
    simp [groupToolsAux, List.isEmpty_iff, hc]
  | cons tool rest ih =>
    intro current last hc
    by_cases h : tool.install.parallelGroup ≠ last ∧ ¬ current.isEmpty
    · refine ⟨current, groupToolsAux rest [tool] tool.install.parallelGroup, ?_, rfl⟩
      simp only [groupToolsAux]
      rw [if_pos h]
    · rcases ih (current ++ [tool]) tool.install.parallelGroup (by simp) with ⟨g, gs, hgs, hh⟩
      refine ⟨g, gs, ?_, ?_⟩
      · simp only [groupToolsAux, if_neg h]
        exact hgs
      · rw [hh]
        cases current with
        | nil => exact absurd rfl hc
        | cons x xs => rfl

/-- Adjacent groups emitted by the installer's grouping carry different tags:
the split points are exactly the tag changes, so each group is a maximal
run. -/
theorem groupToolsAux_chain :
    ∀ (rest current : List Tool) (last : String),
      (∀ a ∈ current, a.install.parallelGroup = last) →
      List.Chain' (fun g h => groupTag g ≠ groupTag h) (groupToolsAux rest current last) := by
  intro rest
  induction rest with
  | nil =>
    intro current last _
    by_cases h : current.isEmpty
    · simp [groupToolsAux, h]
    · simp [groupToolsAux, h]
  | cons tool rest ih =>
    intro current last hcur
    by_cases h : tool.install.parallelGroup ≠ last ∧ ¬ current.isEmpty
    · simp only [groupToolsAux, if_pos h]
      have hne : current ≠ [] := fun hc => h.2 (by simp [hc])
      rcases groupToolsAux_head rest [tool] tool.install.parallelGroup (by simp)
        with ⟨g, gs, hgs, hh⟩
      rw [hgs]
      refine List.Chain'.cons ?_ (hgs ▸ ih [tool] tool.install.parallelGroup (by simp))
      have htagc : groupTag current = last := by
        cases current with
        | nil => exact absurd rfl hne
        | cons x xs =>
          show x.install.parallelGroup = last
          exact hcur x (by simp)
      have htagg : groupTag g = tool.install.parallelGroup := by
        unfold groupTag
        rw [hh]
        rfl
      rw [htagc, htagg]
      exact fun hc => h.1 hc.symm
    · simp only [groupToolsAux, if_neg h]
      rcases not_and_or.mp h with h1 | h2
      · have hpg : tool.install.parallelGroup = last := not_not.mp h1
        refine ih (current ++ [tool]) tool.install.parallelGroup ?_
        intro a ha
        rcases List.mem_append.mp ha with ha | ha
        · rw [hcur a ha, hpg]
        · simp only [List.mem_singleton] at ha
          subst ha
          rfl
      · have hce : current = [] := List.isEmpty_iff.mp (not_not.mp h2)
        subst hce
        simpa using ih [tool] tool.install.parallelGroup (by simp)

/-- C1 counterexample: on resolved order `[B(g1), D(g2), E(g1)]` the
executor's grouping step `groupTasks` puts `B` and `E` into one `g1` bucket —
merged across the `g2` gap — while the claimed contiguous partition (the
spec's execution groups) keeps them in two distinct groups. -/
theorem grouping_contiguity_counterexample :
    lookupGroup (groupTasks [taskB, taskD, taskE]) "g1" = some [taskB, taskE] ∧
    specExecutionGroups [taskB, taskD, taskE] = [[taskB], [taskD], [taskE]] ∧
    (groupTasks [taskB, taskD, taskE]).map Prod.snd
      ≠ specExecutionGroups [taskB, taskD, taskE] := by
  refine ⟨?_, ?_, ?_⟩
  all_goals decide

/-- C1 amended: the executor's `groupTasks` groups tasks by tag name alone —
a key's bucket holds every task carrying that tag, in input order, regardless
of gaps (and all empty-tag tasks share the `""` bucket); the tool installer's
`groupToolsByParallelGroup` is the one that splits at tag boundaries: its
groups are nonempty maximal contiguous runs of constant tag (adjacent groups
have different tags) that concatenate back to the input — though consecutive
empty-tag tools also form one shared group there, not singletons. -/
theorem grouping_amended (tasks : List Task) (k : String) (tools : List Tool) :
    (lookupGroup (groupTasks tasks) k
      = if (tasks.filter (fun t => t.parallelGroup = k)).isEmpty then none
        else some (tasks.filter (fun t => t.parallelGroup = k))) ∧
    (groupToolsByParallelGroup tools).flatten = tools ∧
    (∀ g ∈ groupToolsByParallelGroup tools,
      g ≠ [] ∧ ∀ a ∈ g, ∀ b ∈ g, a.install.parallelGroup = b.install.parallelGroup) ∧
    List.Chain' (fun g h => groupTag g ≠ groupTag h) (groupToolsByParallelGroup tools) := by
  refine ⟨?_, ?_, ?_, ?_⟩
  · show lookupGroup (tasks.foldl (fun acc t => insertGroup acc t.parallelGroup t) []) k = _
    rw [lookupGroup_foldl tasks [] k]
    rfl
  · exact groupToolsAux_flatten tools [] ""
  · exact groupToolsAux_groups tools [] "" (by simp)
  · exact groupToolsAux_chain tools [] "" (by simp)

/-- `executeTask` records the executed task itself in its result. -/
theorem execOne_task (env : ExecEnv) (t : Task) : (execOne env t).task = t := by
  unfold execOne executeTask
  split
  · rfl
  · cases h : (runAttemptLoop (env.runs t) (List.range (attemptsBudget t.retryCount)) none "").outcome with
    | ok o => simp [h]
    | error p =>
      obtain ⟨le, out⟩ := p
      simp [h]

/-- The post-group scan: a returned error names a required failed result of
the list, and `none` means no required result failed. -/
theorem firstRequiredFailure_spec (rs : List TaskResult) :
    (∀ e, firstRequiredFailure rs = some e →
      ∃ r ∈ rs, r.task.required = true ∧ r.error = some e.cause ∧ r.task.name = e.taskName) ∧
    (firstRequiredFailure rs = none →
      ∀ r ∈ rs, r.task.required = true → r.error = none) := by
  induction rs with
  | nil =>
    exact ⟨fun e he => by simp [firstRequiredFailure] at he, fun _ r hr => by simp at hr⟩
  | cons r rest ih =>
    cases hr : r.error with
    | none =>
      constructor
      · intro e he
        rw [show firstRequiredFailure (r :: rest) = firstRequiredFailure rest from by
          simp [firstRequiredFailure, hr]] at he
        rcases ih.1 e he with ⟨r', hr', h1, h2, h3⟩
        exact ⟨r', by simp [hr'], h1, h2, h3⟩
      · intro he r' hr' hreq
        rw [show firstRequiredFailure (r :: rest) = firstRequiredFailure rest from by
          simp [firstRequiredFailure, hr]] at he
        rcases List.mem_cons.mp hr' with h | h
        · subst h; exact hr
        · exact ih.2 he r' h hreq
    | some f =>
      by_cases hreq : r.task.required = true
      · have hf : firstRequiredFailure (r :: rest) = some ⟨r.task.name, f⟩ := by
          simp [firstRequiredFailure, hr, hreq]
        constructor
        · intro e he
          rw [hf] at he
          obtain rfl : (⟨r.task.name, f⟩ : ExecError) = e := by simpa using he
          exact ⟨r, by simp, hreq, by simp [hr], rfl⟩
        · intro he
          rw [hf] at he
          simp at he
      · have hf : firstRequiredFailure (r :: rest) = firstRequiredFailure rest := by
          simp [firstRequiredFailure, hr, hreq]
        constructor
        · intro e he
          rw [hf] at he
          rcases ih.1 e he with ⟨r', hr', h1, h2, h3⟩
          exact ⟨r', by simp [hr'], h1, h2, h3⟩
        · intro he r' hr' hreq'
          rw [hf] at he
          rcases List.mem_cons.mp hr' with h | h
          · subst h; exact absurd hreq' hreq
          · exact ih.2 he r' h hreq'

/-- The sequential bucket: a returned error names a required failed recorded
result, and success means no recorded required result failed. -/
theorem execSequential_spec (env : ExecEnv) :
    ∀ tasks : List Task,
      (∀ e, (execSequential env tasks).2 = some e →
        ∃ r ∈ (execSequential env tasks).1,
          r.task.required = true ∧ r.error = some e.cause ∧ r.task.name = e.taskName) ∧
      ((execSequential env tasks).2 = none →
        ∀ r ∈ (execSequential env tasks).1, r.task.required = true → r.error = none) := by
  intro tasks
  induction tasks with
  | nil =>
    exact ⟨fun e he => by simp [execSequential] at he, fun _ r hr => by simp [execSequential] at hr⟩
  | cons t rest ih =>
    cases hr : (execOne env t).error with
    | none =>
      have heq : execSequential env (t :: rest)
          = (execOne env t :: (execSequential env rest).1, (execSequential env rest).2) := by
        simp [execSequential, hr]
      constructor
      · intro e he
        rw [heq] at he
        rcases ih.1 e he with ⟨r', hr', h1, h2, h3⟩
        exact ⟨r', by rw [heq]; simp [hr'], h1, h2, h3⟩
      · intro he r' hr' hreq
        rw [heq] at he
        rw [heq] at hr'
        rcases List.mem_cons.mp hr' with h | h
        · subst h; exact hr
        · exact ih.2 he r' h hreq
    | some f =>
      by_cases hreq : t.required = true
      · have heq : execSequential env (t :: rest)
            = ([execOne env t], some ⟨t.name, f⟩) := by
          simp [execSequential, hr, hreq]
        constructor
        · intro e he
          rw [heq] at he
          obtain rfl : (⟨t.name, f⟩ : ExecError) = e := by simpa using he
          refine ⟨execOne env t, by rw [heq]; simp, ?_, by simp [hr], ?_⟩
          · rw [execOne_task]; exact hreq
          · rw [execOne_task]
        · intro he
          rw [heq] at he
          simp at he
      · have heq : execSequential env (t :: rest)
            = (execOne env t :: (execSequential env rest).1, (execSequential env rest).2) := by
          simp [execSequential, hr, hreq]
        constructor
        · intro e he
          rw [heq] at he
          rcases ih.1 e he with ⟨r', hr', h1, h2, h3⟩
          exact ⟨r', by rw [heq]; simp [hr'], h1, h2, h3⟩
        · intro he r' hr' hreq'
          rw [heq] at he
          rw [heq] at hr'
          rcases List.mem_cons.mp hr' with h | h
          · subst h
            rw [execOne_task] at hreq'
            exact absurd hreq' hreq
          · exact ih.2 he r' h hreq'

/-- Splitting the group loop at an error: once a group has produced a fatal
error, later groups contribute nothing — they are never started. -/
theorem execGroups_append_error (env : ExecEnv) :
    ∀ (pre rest : List (String × List Task)) (e : ExecError),
      (execGroups env pre).2 = some e →
      execGroups env (pre ++ rest) = execGroups env pre := by
  intro pre
  induction pre with
  | nil =>
    intro rest e he
    simp [execGroups] at he
  | cons g pre' ih =>
    intro rest e he
    obtain ⟨gname, gTasks⟩ := g
    by_cases hg : gname = ""
    · subst hg
      cases hs : execSequential env gTasks with
      | mk rs oe =>
        cases oe with
        | none =>
          have h1 : execGroups env (("", gTasks) :: pre')
              = (rs ++ (execGroups env pre').1, (execGroups env pre').2) := by
            simp [execGroups, hs]
          have h2 : execGroups env (("", gTasks) :: (pre' ++ rest))
              = (rs ++ (execGroups env (pre' ++ rest)).1, (execGroups env (pre' ++ rest)).2) := by
            simp [execGroups, hs]
          rw [h1] at he
          rw [List.cons_append, h2, ih rest e he, h1]
        | some e' =>
          have h1 : ∀ tail, execGroups env (("", gTasks) :: tail) = (rs, some e') := by
            intro tail
            simp [execGroups, hs]
          rw [List.cons_append, h1, h1]
    · cases hf : firstRequiredFailure (executeParallelGroup env gTasks) with
      | none =>
        have h1 : execGroups env ((gname, gTasks) :: pre')
            = (executeParallelGroup env gTasks ++ (execGroups env pre').1,
               (execGroups env pre').2) := by
          simp [execGroups, hg, hf]
        have h2 : execGroups env ((gname, gTasks) :: (pre' ++ rest))
            = (executeParallelGroup env gTasks ++ (execGroups env (pre' ++ rest)).1,
               (execGroups env (pre' ++ rest)).2) := by
          simp [execGroups, hg, hf]
        rw [h1] at he
        rw [List.cons_append, h2, ih rest e he, h1]
      | some e' =>
        have h1 : ∀ tail, execGroups env ((gname, gTasks) :: tail)
            = (executeParallelGroup env gTasks, some e') := by
          intro tail
          simp [execGroups, hg, hf]
        rw [List.cons_append, h1, h1]

/-- Splitting the group loop after an error-free prefix: its results come
first, then the remaining groups run. -/
theorem execGroups_append_ok (env : ExecEnv) :
    ∀ (pre rest : List (String × List Task)),
      (execGroups env pre).2 = none →
      execGroups env (pre ++ rest)
        = ((execGroups env pre).1 ++ (execGroups env rest).1, (execGroups env rest).2) := by
  intro pre
  induction pre with
  | nil =>
    intro rest _
    simp [execGroups]
  | cons g pre' ih =>
    intro rest he
    obtain ⟨gname, gTasks⟩ := g
    by_cases hg : gname = ""
    · subst hg
      cases hs : execSequential env gTasks with
      | mk rs oe =>
        cases oe with
        | none =>
          have h1 : ∀ tail, execGroups env (("", gTasks) :: tail)
              = (rs ++ (execGroups env tail).1, (execGroups env tail).2) := by
            intro tail
            simp [execGroups, hs]
          rw [h1] at he
          rw [List.cons_append, h1, ih rest he, h1]
          simp
        | some e' =>
          have h1 : execGroups env (("", gTasks) :: pre') = (rs, some e') := by
            simp [execGroups, hs]
          rw [h1] at he
          simp at he
    · cases hf : firstRequiredFailure (executeParallelGroup env gTasks) with
      | none =>
        have h1 : ∀ tail, execGroups env ((gname, gTasks) :: tail)
            = (executeParallelGroup env gTasks ++ (execGroups env tail).1,
               (execGroups env tail).2) := by
          intro tail
          simp [execGroups, hg, hf]
        rw [h1] at he
        rw [List.cons_append, h1, ih rest he, h1]
        simp
      | some e' =>
        have h1 : execGroups env ((gname, gTasks) :: pre')
            = (executeParallelGroup env gTasks, some e') := by
          simp [execGroups, hg, hf]
        rw [h1] at he
        simp at he

/-- The group loop: a returned error names a required failed recorded result,
and a `nil` error means no recorded required result failed. -/
theorem execGroups_spec (env : ExecEnv) :
    ∀ gs : List (String × List Task),
      (∀ e, (execGroups env gs).2 = some e →
        ∃ r ∈ (execGroups env gs).1,
          r.task.required = true ∧ r.error = some e.cause ∧ r.task.name = e.taskName) ∧
      ((execGroups env gs).2 = none →
        ∀ r ∈ (execGroups env gs).1, r.task.required = true → r.error = none) := by
  intro gs
  induction gs with
  | nil =>
    exact ⟨fun e he => by simp [execGroups] at he, fun _ r hr => by simp [execGroups] at hr⟩
  | cons g rest ih =>
    obtain ⟨gname, gTasks⟩ := g
    by_cases hg : gname = ""
    · subst hg
      cases hs : execSequential env gTasks with
      | mk rs oe =>
        have hseq := execSequential_spec env gTasks
        rw [hs] at hseq
        cases oe with
        | none =>
          have h1 : execGroups env (("", gTasks) :: rest)
              = (rs ++ (execGroups env rest).1, (execGroups env rest).2) := by
            simp [execGroups, hs]
          rw [h1]
          constructor
          · intro e he
            rcases ih.1 e he with ⟨r', hr', p1, p2, p3⟩
            exact ⟨r', by simp [hr'], p1, p2, p3⟩
          · intro he r' hr' hreq
            rcases List.mem_append.mp hr' with h | h
            · exact hseq.2 rfl r' h hreq
            · exact ih.2 he r' h hreq
        | some e' =>
          have h1 : execGroups env (("", gTasks) :: rest) = (rs, some e') := by
            simp [execGroups, hs]
          rw [h1]
          constructor
          · intro e he
            obtain rfl : e' = e := by simpa using he
            exact hseq.1 e' rfl
          · intro he
            simp at he
    · cases hf : firstRequiredFailure (executeParallelGroup env gTasks) with
      | none =>
        have hpar := firstRequiredFailure_spec (executeParallelGroup env gTasks)
        have h1 : execGroups env ((gname, gTasks) :: rest)
            = (executeParallelGroup env gTasks ++ (execGroups env rest).1,
               (execGroups env rest).2) := by
          simp [execGroups, hg, hf]
        rw [h1]
        constructor
        · intro e he
          rcases ih.1 e he with ⟨r', hr', p1, p2, p3⟩
          exact ⟨r', by simp [hr'], p1, p2, p3⟩
        · intro he r' hr' hreq
          rcases List.mem_append.mp hr' with h | h
          · exact hpar.2 hf r' h hreq
          · exact ih.2 he r' h hreq
      | some e' =>
        have hpar := firstRequiredFailure_spec (executeParallelGroup env gTasks)
        have h1 : execGroups env ((gname, gTasks) :: rest)
            = (executeParallelGroup env gTasks, some e') := by
          simp [execGroups, hg, hf]
        rw [h1]
        constructor
        · intro e he
          obtain rfl : e' = e := by simpa using he
          exact hpar.1 e' hf
        · intro he
          simp at he

/-- C4: `Execute` (over any iteration order of the task groups) returns a
fatal error exactly when some recorded result is a failed required task; the
error names such a task and wraps its cause; runs with only optional failures
return success; once a prefix of groups has produced the fatal error the
remaining groups contribute nothing (never started); and when the error
originates in a parallel group, every sibling of that group has its result
recorded (`executeParallelGroup` runs them all to completion). -/
theorem execute_required_failure (env : ExecEnv) (tasks : List Task)
    (gs : List (String × List Task)) (_hgs : gs.Perm (groupTasks tasks)) :
    ((Execute env gs).2.isSome ↔
      ∃ r ∈ (Execute env gs).1, r.task.required = true ∧ r.error.isSome) ∧
    (∀ e, (Execute env gs).2 = some e →
      ∃ r ∈ (Execute env gs).1,
        r.task.name = e.taskName ∧ r.task.required = true ∧ r.error = some e.cause) ∧
    (∀ pre rest e, gs = pre ++ rest → (execGroups env pre).2 = some e →
      Execute env gs = execGroups env pre) ∧
    (∀ pre gname ts rest, gs = pre ++ (gname, ts) :: rest → gname ≠ "" →
      (execGroups env pre).2 = none →
      ∀ e, firstRequiredFailure (executeParallelGroup env ts) = some e →
      (Execute env gs).1 = (execGroups env pre).1 ++ executeParallelGroup env ts ∧
      (Execute env gs).2 = some e) := by
  have hspec := execGroups_spec env gs
  refine ⟨?_, ?_, ?_, ?_⟩
  · constructor
    · intro hsome
      rcases Option.isSome_iff_exists.mp hsome with ⟨e, he⟩
      rcases hspec.1 e he with ⟨r, hr, p1, p2, _⟩
      exact ⟨r, hr, p1, by simp [p2]⟩
    · intro ⟨r, hr, hreq, herr⟩
      cases he : (Execute env gs).2 with
      | some e => rfl
      | none =>
        have := hspec.2 he r hr hreq
        rw [this] at herr
        simp at herr
  · intro e he
    rcases hspec.1 e he with ⟨r, hr, p1, p2, p3⟩
    exact ⟨r, hr, p3, p1, p2⟩
  · intro pre rest e hsplit he
    show execGroups env gs = _
    rw [hsplit]
    exact execGroups_append_error env pre rest e he
  · intro pre gname ts rest hsplit hgname hok e hfail
    have h1 : execGroups env ((gname, ts) :: rest)
        = (executeParallelGroup env ts, some e) := by
      simp [execGroups, hgname, hfail]
    have h2 : execGroups env gs
        = ((execGroups env pre).1 ++ (execGroups env ((gname, ts) :: rest)).1,
           (execGroups env ((gname, ts) :: rest)).2) := by
      rw [hsplit]
      exact execGroups_append_ok env pre ((gname, ts) :: rest) hok
    rw [h1] at h2
    exact ⟨by rw [show Execute env gs = execGroups env gs from rfl, h2],
           by rw [show Execute env gs = execGroups env gs from rfl, h2]⟩

/-- Witness for C4 at a concrete run: group `par` holds a failing required
task and a succeeding optional sibling, followed by a sequential group; the
run errors, both siblings' results are recorded, and the trailing group never
starts (only 2 results recorded). -/
theorem execute_required_failure_witness :
    ((Execute demoExecEnv (groupTasks [reqFailTask, okTask, afterTask])).2.isSome ↔
      ∃ r ∈ (Execute demoExecEnv (groupTasks [reqFailTask, okTask, afterTask])).1,
        r.task.required = true ∧ r.error.isSome) ∧
    (Execute demoExecEnv (groupTasks [reqFailTask, okTask, afterTask])).2.isSome = true ∧
    (Execute demoExecEnv (groupTasks [reqFailTask, okTask, afterTask])).1.length = 2 := by
  refine ⟨(execute_required_failure demoExecEnv [reqFailTask, okTask, afterTask]
    (groupTasks [reqFailTask, okTask, afterTask]) (List.Perm.refl _)).1, ?_, ?_⟩
  · decide
  · decide

/-- `GetInstallOrder` in terms of `kahnRun`. -/
theorem getInstallOrder_eq (seed : List String) (tools : List Tool) :
    GetInstallOrder seed tools
      = if (kahnRun seed tools).length = tools.length
        then some ((kahnRun seed tools).map (nameToTool tools))
        else none := rfl

/-- Counting over an empty list. -/
theorem countName_nil (n : String) : countName [] n = 0 := rfl

/-- Counting over a cons. -/
theorem countName_cons (x : String) (l : List String) (n : String) :
    countName (x :: l) n = (if x = n then 1 else 0) + countName l n := by
  unfold countName
  rw [List.filter_cons]
  by_cases h : x = n
  · rw [if_pos (by simpa using h), if_pos h, List.length_cons]
    omega
  · rw [if_neg (by simpa using h), if_neg h]
    omega

/-- Counting distributes over append. -/
theorem countName_append (l1 l2 : List String) (n : String) :
    countName (l1 ++ l2) n = countName l1 n + countName l2 n := by
  unfold countName
  rw [List.filter_append, List.length_append]

/-- A name occurs in a list exactly when its count is positive. -/
theorem countName_pos_iff (l : List String) (n : String) :
    1 ≤ countName l n ↔ n ∈ l := by
  induction l with
  | nil => simp [countName_nil]
  | cons x t ih =>
    rw [countName_cons, List.mem_cons]
    by_cases h : x = n
    · simp [h]
    · rw [if_neg h]
      simp only [Nat.zero_add]
      rw [ih]
      constructor
      · exact fun hm => Or.inr hm
      · intro hm
        rcases hm with hm | hm
        · exact absurd hm.symm h
        · exact hm

/-- A name is absent exactly when its count is zero. -/
theorem countName_eq_zero (l : List String) (n : String) :
    countName l n = 0 ↔ ¬ n ∈ l := by
  rw [← countName_pos_iff]
  omega

/-- The count never exceeds the length. -/
theorem countName_le_length (l : List String) (n : String) :
    countName l n ≤ l.length :=
  List.length_filter_le _ l

/-- A list all of whose counts are at most one has no duplicates. -/
theorem nodup_of_countName_le_one (l : List String) (h : ∀ n, countName l n ≤ 1) :
    l.Nodup := by
  induction l with
  | nil => exact List.nodup_nil
  | cons x t ih =>
    refine List.Nodup.cons ?_ (ih ?_)
    · intro hx
      have h1 := h x
      rw [countName_cons, if_pos rfl] at h1
      have h2 := (countName_pos_iff t x).mpr hx
      omega
    · intro n
      have h1 := h n
      rw [countName_cons] at h1
      omega

/-- A duplicate-free list has all counts at most one. -/
theorem countName_le_one_of_nodup (l : List String) (h : l.Nodup) (n : String) :
    countName l n ≤ 1 := by
  induction l with
  | nil => simp [countName_nil]
  | cons x t ih =>
    rw [countName_cons]
    rcases List.nodup_cons.mp h with ⟨hx, ht⟩
    by_cases hxn : x = n
    · subst hxn
      have h0 : countName t x = 0 := (countName_eq_zero t x).mpr hx
      rw [if_pos rfl, h0]
    · rw [if_neg hxn]
      have := ih ht
      omega

/-- Filtering by membership in the empty list keeps everything. -/
theorem filter_not_mem_nil (l : List String) :
    l.filter (fun d => ¬ d ∈ ([] : List String)) = l := by
  induction l with
  | nil => rfl
  | cons x t ih =>
    rw [List.filter_cons, if_pos (by simp)]
    rw [ih]

/-- Removing the occurrences of one name shortens a list by their count. -/
theorem length_filter_ne (l : List String) (c : String) :
    (l.filter (fun d => ¬ d = c)).length + countName l c = l.length := by
  induction l with
  | nil => rfl
  | cons x t ih =>
    rw [List.filter_cons, countName_cons]
    by_cases h : x = c
    · rw [if_neg (by simpa using h), if_pos h, List.length_cons]
      omega
    · rw [if_pos (by simpa using h), if_neg h, List.length_cons, List.length_cons]
      omega

/-- Filtering by non-membership in `ordered ++ [c]` factors through filtering
by non-membership in `ordered` and then dropping `c`. -/
theorem filter_not_mem_append_singleton (l ordered : List String) (c : String) :
    l.filter (fun d => ¬ d ∈ ordered ++ [c])
      = (l.filter (fun d => ¬ d ∈ ordered)).filter (fun d => ¬ d = c) := by
  induction l with
  | nil => rfl
  | cons x t ih =>
    by_cases h1 : x ∈ ordered
    · rw [List.filter_cons, List.filter_cons, if_neg (by simp [h1]), if_neg (by simp [h1]), ih]
    · by_cases h2 : x = c
      · subst h2
        rw [List.filter_cons, List.filter_cons, if_neg (by simp), if_pos (by simpa using h1),
          List.filter_cons, if_neg (by simp), ih]
      · rw [List.filter_cons, List.filter_cons, if_pos (by simp [h1, h2]),
          if_pos (by simpa using h1), List.filter_cons, if_pos (by simpa using h2), ih]

/-- A name outside `ordered` is counted the same before and after filtering
out the members of `ordered`. -/
theorem countName_filter_not_mem (l ordered : List String) (c : String) (hc : ¬ c ∈ ordered) :
    countName (l.filter (fun d => ¬ d ∈ ordered)) c = countName l c := by
  induction l with
  | nil => rfl
  | cons x t ih =>
    rw [countName_cons, List.filter_cons]
    by_cases h1 : x ∈ ordered
    · rw [if_neg (by simpa using h1), ih]
      have hxc : ¬ x = c := fun hx => hc (hx ▸ h1)
      rw [if_neg hxc]
      omega
    · rw [if_pos (by simpa using h1), countName_cons, ih]

/-- Membership in `depsOf`: an edge comes from some tool named `n`. -/
theorem depsOf_mem (tools : List Tool) (n d : String) (h : d ∈ depsOf tools n) :
    ∃ t ∈ tools, t.name = n ∧ d ∈ t.dependsOn := by
  unfold depsOf at h
  rcases List.mem_flatten.mp h with ⟨l, hl, hd⟩
  rcases List.mem_map.mp hl with ⟨t, ht, rfl⟩
  rcases List.mem_filter.mp ht with ⟨htools, hname⟩
  exact ⟨t, htools, by simpa using hname, hd⟩

/-- A name with a dependency edge into it names some tool. -/
theorem depsOf_ne_nil_mem (tools : List Tool) (n : String) (h : depsOf tools n ≠ []) :
    n ∈ toolNames tools := by
  rcases List.exists_mem_of_ne_nil _ h with ⟨d, hd⟩
  rcases depsOf_mem tools n d hd with ⟨t, ht, hname, _⟩
  exact hname ▸ List.mem_map_of_mem (fun t => t.name) ht

/-- The dependents list of `d` counts `n` as often as the dependencies of `n`
count `d`. -/
theorem countName_depGraph (tools : List Tool) (d n : String) :
    countName (depGraph tools d) n = countName (depsOf tools n) d := by
  induction tools with
  | nil => rfl
  | cons t rest ih =>
    have hgraph : depGraph (t :: rest) d
        = ((t.dependsOn.filter (fun x => x = d)).map (fun _ => t.name)) ++ depGraph rest d := by
      unfold depGraph
      rw [List.map_cons, List.flatten_cons]
    rw [hgraph, countName_append, ih]
    have hmap : countName ((t.dependsOn.filter (fun x => x = d)).map (fun _ => t.name)) n
        = if t.name = n then countName t.dependsOn d else 0 := by
      by_cases hn : t.name = n
      · rw [if_pos hn]
        unfold countName
        rw [List.filter_map]
        have : (fun x => decide (x = n)) ∘ (fun _ : String => t.name) = fun _ => decide (t.name = n) := rfl
        rw [this]
        simp [hn]
      · rw [if_neg hn]
        unfold countName
        rw [List.filter_map]
        have : (fun x => decide (x = n)) ∘ (fun _ : String => t.name) = fun _ => decide (t.name = n) := rfl
        rw [this]
        simp [hn]
    have hdeps : depsOf (t :: rest) n
        = (if t.name = n then t.dependsOn else []) ++ depsOf rest n := by
      unfold depsOf
      rw [List.filter_cons]
      by_cases hn : t.name = n
      · rw [if_pos (by simpa using hn), if_pos hn, List.map_cons, List.flatten_cons]
      · rw [if_neg (by simpa using hn), if_neg hn, List.nil_append]
    rw [hdeps, countName_append, hmap]
    by_cases hn : t.name = n
    · rw [if_pos hn, if_pos hn]
    · rw [if_neg hn, if_neg hn, countName_nil]

/-- The initial in-degree of a name is the number of its dependency edges. -/
theorem inDegreeInit_eq (tools : List Tool) (n : String) :
    inDegreeInit tools n = ((depsOf tools n).length : Int) := by
  induction tools with
  | nil => rfl
  | cons t rest ih =>
    unfold inDegreeInit depsOf at ih ⊢
    rw [List.filter_cons]
    by_cases hn : t.name = n
    · rw [if_pos (by simpa using hn), List.map_cons, List.map_cons, List.flatten_cons,
        List.sum_cons, List.length_append, ih]
      push_cast
      ring
    · rw [if_neg (by simpa using hn)]
      exact ih

/-- Decomposing a decomposition of `l ++ [a]`: the marked element is either
the appended one or inside `l`. -/
theorem append_singleton_decomp (l : List String) (a : String) (pre : List String)
    (n : String) (post : List String) (h : l ++ [a] = pre ++ n :: post) :
    (pre = l ∧ n = a ∧ post = []) ∨ ∃ post', l = pre ++ n :: post' ∧ post = post' ++ [a] := by
  rcases List.eq_nil_or_concat post with hp | ⟨post', b, hp⟩
  · subst hp
    rcases List.append_inj' h rfl with ⟨h1, h2⟩
    exact Or.inl ⟨h1.symm, by simpa using h2.symm, rfl⟩
  · rw [List.concat_eq_append] at hp
    subst hp
    have h' : l ++ [a] = (pre ++ n :: post') ++ [b] := by
      rw [h]
      simp
    rcases List.append_inj' h' rfl with ⟨h1, h2⟩
    have hab : a = b := by simpa using h2
    subst hab
    exact Or.inr ⟨post', h1, rfl⟩

/-- Appending a name whose dependencies are all already listed preserves the
dependency-respecting property. -/
theorem depsRespected_append (tools : List Tool) (ordered : List String) (c : String)
    (h : depsRespected tools ordered) (hc : ∀ d ∈ depsOf tools c, d ∈ ordered) :
    depsRespected tools (ordered ++ [c]) := by
  intro pre n post hsplit d hd
  rcases append_singleton_decomp ordered c pre n post hsplit with ⟨hpre, hn, _⟩ | ⟨post', hl, _⟩
  · subst hpre
    subst hn
    exact hc d hd
  · exact h pre n post' hl d hd

/-- In a dependency-respecting list, a listed name has no pending
dependencies. -/
theorem depsRespected_mem_filter_nil (tools : List Tool) (ordered : List String) (n : String)
    (h : depsRespected tools ordered) (hn : n ∈ ordered) :
    (depsOf tools n).filter (fun d => ¬ d ∈ ordered) = [] := by
  rcases List.append_of_mem hn with ⟨s, t, hst⟩
  rw [List.filter_eq_nil_iff]
  intro d hd
  have : d ∈ s := h s n t hst d hd
  simp only [decide_not, Bool.not_eq_true', decide_eq_false_iff_not, not_not]
  rw [hst]
  exact List.mem_append.mpr (Or.inl this)

/-- Unfolding one edge of the decrement loop. -/
theorem processEdges_cons (deg : String → Int) (queue : List String) (dependent : String)
    (rest : List String) :
    processEdges deg queue (dependent :: rest)
      = processEdges (fun k => if k = dependent then deg k - 1 else deg k)
          (if deg dependent - 1 = 0 then queue ++ [dependent] else queue) rest := by
  simp [processEdges]

/-- The decrement loop lowers each in-degree by the number of edges aimed at
it. -/
theorem processEdges_deg (edges : List String) :
    ∀ (deg : String → Int) (queue : List String) (n : String),
      (processEdges deg queue edges).1 n = deg n - (countName edges n : Int) := by
  induction edges with
  | nil =>
    intro deg queue n
    simp [processEdges, countName_nil]
  | cons dependent rest ih =>
    intro deg queue n
    rw [processEdges_cons, ih, countName_cons]
    by_cases h : n = dependent
    · have h' : dependent = n := h.symm
      simp only [if_pos h, if_pos h']
      push_cast
      omega
    · have h' : ¬ dependent = n := fun hc => h hc.symm
      simp only [if_neg h, if_neg h']
      push_cast
      omega

/-- The decrement loop enqueues a name exactly when its in-degree passes
through zero: it was positive and the edges aimed at it reach it. -/
theorem processEdges_queueCount (edges : List String) :
    ∀ (deg : String → Int) (queue : List String) (n : String),
      countName (processEdges deg queue edges).2 n
        = countName queue n
          + (if 1 ≤ deg n ∧ deg n ≤ (countName edges n : Int) then 1 else 0) := by
  induction edges with
  | nil =>
    intro deg queue n
    have hn : ¬ (1 ≤ deg n ∧ deg n ≤ (countName ([] : List String) n : Int)) := by
      rw [countName_nil]
      push_cast
      omega
    rw [if_neg hn]
    simp [processEdges]
  | cons dependent rest ih =>
    intro deg queue n
    rw [processEdges_cons, ih, countName_cons]
    by_cases h : n = dependent
    · subst h
      simp only [eq_self_iff_true, if_true]
      by_cases h0 : deg n - 1 = 0
      · rw [if_pos h0, countName_append, countName_cons, if_pos rfl, countName_nil]
        have hI : ¬ (1 ≤ deg n - 1 ∧ deg n - 1 ≤ (countName rest n : Int)) := by omega
        have hI2 : 1 ≤ deg n ∧ deg n ≤ (((1 + countName rest n : Nat) : Int)) := by
          push_cast
          omega
        rw [if_neg hI, if_pos hI2]
      · rw [if_neg h0]
        by_cases hI : 1 ≤ deg n - 1 ∧ deg n - 1 ≤ (countName rest n : Int)
        · have hI2 : 1 ≤ deg n ∧ deg n ≤ (((1 + countName rest n : Nat) : Int)) := by
            push_cast at hI ⊢
            omega
          rw [if_pos hI, if_pos hI2]
        · have hI2 : ¬ (1 ≤ deg n ∧ deg n ≤ (((1 + countName rest n : Nat) : Int))) := by
            push_cast at hI ⊢
            omega
          rw [if_neg hI, if_neg hI2]
    · have h' : ¬ dependent = n := fun hc => h hc.symm
      simp only [if_neg h, if_neg h']
      have hq : countName (if deg dependent - 1 = 0 then queue ++ [dependent] else queue) n
          = countName queue n := by
        by_cases h0 : deg dependent - 1 = 0
        · rw [if_pos h0, countName_append, countName_cons, if_neg h', countName_nil]
          omega
        · rw [if_neg h0]
      rw [hq]
      simp only [Nat.zero_add]

/-- A list with multiplicity at most one drawn from a duplicate-free pool is
no longer than the pool. -/
theorem length_le_of_counts (l names : List String) (hc : ∀ n, countName l n ≤ 1)
    (hsub : ∀ x ∈ l, x ∈ names) : l.length ≤ names.length := by
  have hld : l.Nodup := nodup_of_countName_le_one l hc
  exact (List.subperm_of_subset hld hsub).length_le

/-- Conclusions of the Kahn loop at a stuck or finished state: the output is
duplicate-free, draws from the tool names, respects dependencies, and every
name left out has a dependency left out. -/
theorem kahn_final_props (tools : List Tool) (deg : String → Int) (ordered : List String)
    (hcnt : ∀ n, countName ordered n ≤ 1)
    (hsub : ∀ x ∈ ordered, x ∈ toolNames tools)
    (hdeg : ∀ n, deg n = (((depsOf tools n).filter (fun d => ¬ d ∈ ordered)).length : Int))
    (hstuck : ∀ n, ¬ (n ∈ toolNames tools ∧ ¬ n ∈ ordered ∧ deg n = 0))
    (hresp : depsRespected tools ordered) :
    (∀ n, countName ordered n ≤ 1) ∧ (∀ x ∈ ordered, x ∈ toolNames tools) ∧
    depsRespected tools ordered ∧
    (∀ n ∈ toolNames tools, ¬ n ∈ ordered → ∃ d ∈ depsOf tools n, ¬ d ∈ ordered) := by
  refine ⟨hcnt, hsub, hresp, ?_⟩
  intro n hn hnot
  have hdegne : ¬ deg n = 0 := fun h0 => hstuck n ⟨hn, hnot, h0⟩
  rw [hdeg n] at hdegne
  have hne : ((depsOf tools n).filter (fun d => ¬ d ∈ ordered)) ≠ [] := by
    intro hnil
    apply hdegne
    rw [hnil]
    rfl
  rcases List.exists_mem_of_ne_nil _ hne with ⟨d, hd⟩
  rcases List.mem_filter.mp hd with ⟨hd1, hd2⟩
  exact ⟨d, hd1, by simpa using hd2⟩

/-- Invariant induction for the Kahn worklist loop of `GetInstallOrder`: from
a consistent intermediate state (exact multiplicities, queue characterization,
dependency-respecting prefix, enough fuel), the final output is duplicate-free,
drawn from the tool names, dependency-respecting, and leaves out only names
that still have a left-out dependency. -/
theorem kahnLoop_spec (tools : List Tool) :
    ∀ (fuel : Nat) (queue : List String) (deg : String → Int) (ordered : List String),
      (∀ n, countName (ordered ++ queue) n ≤ 1) →
      (∀ x ∈ ordered ++ queue, x ∈ toolNames tools) →
      (∀ n, deg n = (((depsOf tools n).filter (fun d => ¬ d ∈ ordered)).length : Int)) →
      (∀ n, n ∈ queue ↔ n ∈ toolNames tools ∧ ¬ n ∈ ordered ∧ deg n = 0) →
      depsRespected tools ordered →
      (toolNames tools).length ≤ fuel + ordered.length →
      (∀ n, countName (kahnLoop (depGraph tools) fuel queue deg ordered) n ≤ 1) ∧
      (∀ x ∈ kahnLoop (depGraph tools) fuel queue deg ordered, x ∈ toolNames tools) ∧
      depsRespected tools (kahnLoop (depGraph tools) fuel queue deg ordered) ∧
      (∀ n ∈ toolNames tools, ¬ n ∈ kahnLoop (depGraph tools) fuel queue deg ordered →
        ∃ d ∈ depsOf tools n, ¬ d ∈ kahnLoop (depGraph tools) fuel queue deg ordered) := by
  intro fuel
  induction fuel with
  | zero =>
    intro queue deg ordered hcnt hsub hdeg hqiff hresp hlen
    have hqnil : queue = [] := by
      have h1 : (ordered ++ queue).length ≤ (toolNames tools).length :=
        length_le_of_counts _ _ hcnt hsub
      rw [List.length_append] at h1
      have h2 : queue.length = 0 := by omega
      exact List.length_eq_zero.mp h2
    subst hqnil
    have hout : kahnLoop (depGraph tools) 0 [] deg ordered = ordered := rfl
    rw [hout]
    refine kahn_final_props tools deg ordered ?_ ?_ hdeg ?_ hresp
    · intro n
      have := hcnt n
      rwa [List.append_nil] at this
    · intro x hx
      exact hsub x (by rw [List.append_nil]; exact hx)
    · intro n hc
      exact absurd ((hqiff n).mpr hc) (by simp)
  | succ fuel ih =>
    intro queue deg ordered hcnt hsub hdeg hqiff hresp hlen
    cases queue with
    | nil =>
      have hout : kahnLoop (depGraph tools) (fuel + 1) [] deg ordered = ordered := rfl
      rw [hout]
      refine kahn_final_props tools deg ordered ?_ ?_ hdeg ?_ hresp
      · intro n
        have := hcnt n
        rwa [List.append_nil] at this
      · intro x hx
        exact hsub x (by rw [List.append_nil]; exact hx)
      · intro n hc
        exact absurd ((hqiff n).mpr hc) (by simp)
    | cons current qrest =>
      obtain ⟨hcn, hcno, hcd0⟩ := (hqiff current).mp (by simp)
      have hLnil : (depsOf tools current).filter (fun d => ¬ d ∈ ordered) = [] := by
        have h0 : (((depsOf tools current).filter (fun d => ¬ d ∈ ordered)).length : Int) = 0 := by
          rw [← hdeg current]
          exact hcd0
        exact List.length_eq_zero.mp (by exact_mod_cast h0)
      have hcdeps : ∀ d ∈ depsOf tools current, d ∈ ordered := by
        intro d hd
        by_contra hdo
        have hmem : d ∈ (depsOf tools current).filter (fun d => ¬ d ∈ ordered) :=
          List.mem_filter.mpr ⟨hd, by simpa using hdo⟩
        rw [hLnil] at hmem
        simp at hmem
      have hstep : kahnLoop (depGraph tools) (fuel + 1) (current :: qrest) deg ordered
          = kahnLoop (depGraph tools) fuel
              (processEdges deg qrest (depGraph tools current)).2
              (processEdges deg qrest (depGraph tools current)).1
              (ordered ++ [current]) := by
        simp only [kahnLoop]
      rw [hstep]
      -- facts used throughout the re-establishment of the invariants
      have hdeg2 : ∀ n, (processEdges deg qrest (depGraph tools current)).1 n
          = deg n - (countName (depsOf tools n) current : Int) := by
        intro n
        rw [processEdges_deg (depGraph tools current) deg qrest n, countName_depGraph]
      have hq2 : ∀ n, countName (processEdges deg qrest (depGraph tools current)).2 n
          = countName qrest n
            + (if 1 ≤ deg n ∧ deg n ≤ (countName (depsOf tools n) current : Int)
               then 1 else 0) := by
        intro n
        rw [processEdges_queueCount (depGraph tools current) deg qrest n, countName_depGraph]
      have hcurL : ∀ n, countName ((depsOf tools n).filter (fun d => ¬ d ∈ ordered)) current
          = countName (depsOf tools n) current := fun n =>
        countName_filter_not_mem (depsOf tools n) ordered current hcno
      have hcntord : ∀ n, countName ordered n
            + ((if current = n then 1 else 0) + countName qrest n) ≤ 1 := by
        intro n
        have := hcnt n
        rwa [countName_append, countName_cons] at this
      have hordzero : ∀ n, 1 ≤ deg n → ¬ n ∈ ordered := by
        intro n h1 hmem
        have : (depsOf tools n).filter (fun d => ¬ d ∈ ordered) = [] :=
          depsRespected_mem_filter_nil tools ordered n hresp hmem
        rw [hdeg n, this] at h1
        simp at h1
      have hnamepos : ∀ n, 1 ≤ deg n → n ∈ toolNames tools := by
        intro n h1
        rw [hdeg n] at h1
        apply depsOf_ne_nil_mem
        intro hnil
        rw [show (depsOf tools n).filter (fun d => ¬ d ∈ ordered) = [] by rw [hnil]; rfl] at h1
        simp at h1
      have hqrestzero : ∀ n, 1 ≤ deg n → countName qrest n = 0 := by
        intro n h1
        rcases Nat.eq_zero_or_pos (countName qrest n) with h | h
        · exact h
        · have hmem : n ∈ current :: qrest :=
            List.mem_cons_of_mem current ((countName_pos_iff qrest n).mp h)
          have := ((hqiff n).mp hmem).2.2
          omega
      have hdegcur : ∀ n, deg n = 0 → countName (depsOf tools n) current = 0 := by
        intro n h0
        rw [hdeg n] at h0
        have hlen0 : ((depsOf tools n).filter (fun d => ¬ d ∈ ordered)).length = 0 := by
          exact_mod_cast h0
        have := hcurL n
        have hle := countName_le_length ((depsOf tools n).filter (fun d => ¬ d ∈ ordered)) current
        omega
      have hcntle : ∀ n, (countName (depsOf tools n) current : Int) ≤ deg n := by
        intro n
        rw [hdeg n, ← hcurL n]
        exact_mod_cast countName_le_length _ current
      -- invariant (i): multiplicities stay at most one
      have inv1 : ∀ n, countName ((ordered ++ [current]) ++ (processEdges deg qrest
          (depGraph tools current)).2) n ≤ 1 := by
        intro n
        rw [countName_append, countName_append, countName_cons, countName_nil, hq2 n]
        by_cases hpush : 1 ≤ deg n ∧ deg n ≤ (countName (depsOf tools n) current : Int)
        · have ho : countName ordered n = 0 :=
            (countName_eq_zero ordered n).mpr (hordzero n hpush.1)
          have hcur : ¬ current = n := by
            intro hc
            subst hc
            have := hpush.1
            omega
          have hqr : countName qrest n = 0 := hqrestzero n hpush.1
          rw [if_pos hpush, if_neg hcur, ho, hqr]
        · rw [if_neg hpush]
          have := hcntord n
          omega
      -- invariant (ii): everything stays inside the tool names
      have inv2 : ∀ x ∈ (ordered ++ [current]) ++ (processEdges deg qrest
          (depGraph tools current)).2, x ∈ toolNames tools := by
        intro x hx
        rcases List.mem_append.mp hx with hx | hx
        · rcases List.mem_append.mp hx with hx | hx
          · exact hsub x (List.mem_append.mpr (Or.inl hx))
          · rw [List.mem_singleton.mp hx]
            exact hcn
        · have hpos := (countName_pos_iff _ x).mpr hx
          rw [hq2 x] at hpos
          by_cases hpush : 1 ≤ deg x ∧ deg x ≤ (countName (depsOf tools x) current : Int)
          · exact hnamepos x hpush.1
          · rw [if_neg hpush] at hpos
            have hxq : x ∈ qrest := (countName_pos_iff qrest x).mp (by omega)
            exact hsub x (List.mem_append.mpr (Or.inr (List.mem_cons_of_mem current hxq)))
      -- invariant (iii): in-degrees track the pending dependencies
      have inv3 : ∀ n, (processEdges deg qrest (depGraph tools current)).1 n
          = (((depsOf tools n).filter (fun d => ¬ d ∈ ordered ++ [current])).length : Int) := by
        intro n
        rw [hdeg2 n, hdeg n, filter_not_mem_append_singleton]
        have hlf := length_filter_ne ((depsOf tools n).filter (fun d => ¬ d ∈ ordered)) current
        have := hcurL n
        omega
      -- invariant (iv): the queue holds exactly the ready unprocessed names
      have inv4 : ∀ n, n ∈ (processEdges deg qrest (depGraph tools current)).2
          ↔ n ∈ toolNames tools ∧ ¬ n ∈ ordered ++ [current]
            ∧ (processEdges deg qrest (depGraph tools current)).1 n = 0 := by
        intro n
        constructor
        · intro hmem
          have hpos := (countName_pos_iff _ n).mpr hmem
          rw [hq2 n] at hpos
          by_cases hpush : 1 ≤ deg n ∧ deg n ≤ (countName (depsOf tools n) current : Int)
          · refine ⟨hnamepos n hpush.1, ?_, ?_⟩
            · intro hmem2
              rcases List.mem_append.mp hmem2 with h | h
              · exact hordzero n hpush.1 h
              · rw [List.mem_singleton.mp h] at hpush
                have := hpush.1
                omega
            · rw [hdeg2 n]
              have := hcntle n
              have h1 := hpush.1
              have h2 := hpush.2
              omega
          · rw [if_neg hpush] at hpos
            have hxq : n ∈ qrest := (countName_pos_iff qrest n).mp (by omega)
            obtain ⟨h1, h2, h3⟩ := (hqiff n).mp (List.mem_cons_of_mem current hxq)
            have hnc : ¬ current = n := by
              intro hc
              subst hc
              have hcc := hcntord current
              rw [if_pos rfl] at hcc
              have hq1 := (countName_pos_iff qrest current).mpr hxq
              omega
            refine ⟨h1, ?_, ?_⟩
            · intro hmem2
              rcases List.mem_append.mp hmem2 with h | h
              · exact h2 h
              · exact hnc (List.mem_singleton.mp h).symm
            · rw [hdeg2 n, hdegcur n h3, h3]
              simp
        · intro ⟨h1, h2, h3⟩
          rw [← countName_pos_iff, hq2 n]
          have hno : ¬ n ∈ ordered := fun hc => h2 (List.mem_append.mpr (Or.inl hc))
          have hnc : ¬ n = current := fun hc => h2 (List.mem_append.mpr (Or.inr (by simp [hc])))
          rw [hdeg2 n] at h3
          have hle := hcntle n
          rcases Nat.eq_zero_or_pos (countName (depsOf tools n) current) with hz | hz
          · have hdeg0 : deg n = 0 := by
              rw [hz] at h3
              push_cast at h3
              omega
            have hmemq : n ∈ current :: qrest := (hqiff n).mpr ⟨h1, hno, hdeg0⟩
            have hxq : n ∈ qrest := by
              rcases List.mem_cons.mp hmemq with h | h
              · exact absurd h hnc
              · exact h
            have := (countName_pos_iff qrest n).mpr hxq
            omega
          · have hpush : 1 ≤ deg n ∧ deg n ≤ (countName (depsOf tools n) current : Int) := by
              constructor
              · omega
              · omega
            rw [if_pos hpush]
            omega
      -- invariant (v): the grown prefix still respects dependencies
      have inv5 : depsRespected tools (ordered ++ [current]) :=
        depsRespected_append tools ordered current hresp hcdeps
      -- invariant (vi): fuel still covers the missing names
      have inv6 : (toolNames tools).length ≤ fuel + (ordered ++ [current]).length := by
        rw [List.length_append, List.length_singleton]
        omega
      exact ih (processEdges deg qrest (depGraph tools current)).2
        (processEdges deg qrest (depGraph tools current)).1
        (ordered ++ [current]) inv1 inv2 inv3 inv4 inv5 inv6

/-- Every member splits its list at its first occurrence. -/
theorem mem_first_split (l : List String) (d : String) (h : d ∈ l) :
    ∃ p1 p2, l = p1 ++ d :: p2 ∧ ¬ d ∈ p1 := by
  induction l with
  | nil => simp at h
  | cons x t ih =>
    by_cases hx : x = d
    · subst hx
      exact ⟨[], t, rfl, by simp⟩
    · have hdt : d ∈ t := by
        rcases List.mem_cons.mp h with h1 | h1
        · exact absurd h1.symm hx
        · exact h1
      rcases ih hdt with ⟨p1, p2, hsplit, hnot⟩
      refine ⟨x :: p1, p2, by rw [hsplit]; rfl, ?_⟩
      intro hc
      rcases List.mem_cons.mp hc with h1 | h1
      · exact hx h1.symm
      · exact hnot h1

/-- The rank of the marked element of a first-occurrence split is the prefix
length. -/
theorem rankIn_eq (pre : List String) (x : String) (post : List String) (hx : ¬ x ∈ pre) :
    rankIn (pre ++ x :: post) x = pre.length := by
  induction pre with
  | nil =>
    unfold rankIn
    rw [List.nil_append, List.takeWhile_cons]
    simp
  | cons p pre' ih =>
    have hp : ¬ p = x := by
      intro hc
      exact hx (by simp [hc])
    have hx' : ¬ x ∈ pre' := fun hc => hx (List.mem_cons_of_mem p hc)
    unfold rankIn at ih ⊢
    rw [List.cons_append, List.takeWhile_cons, if_pos (by simpa using hp), List.length_cons,
      ih hx']
    rfl

/-- The rank of any prefix member is below the prefix length. -/
theorem rankIn_prefix_lt (l pre : List String) (n : String) (post : List String)
    (hsplit : l = pre ++ n :: post) (d : String) (hd : d ∈ pre) :
    rankIn l d < pre.length := by
  rcases mem_first_split pre d hd with ⟨p1, p2, hp, hnot⟩
  have hl : l = p1 ++ d :: (p2 ++ n :: post) := by
    rw [hsplit, hp]
    simp
  rw [hl, rankIn_eq p1 d _ hnot]
  have : pre.length = p1.length + 1 + p2.length := by
    rw [hp]
    simp
    omega
  omega

/-- In a duplicate-free dependency-respecting complete order, every
dependency edge strictly lowers the rank. -/
theorem depRel_rank_lt (tools : List Tool) (out : List String)
    (hresp : depsRespected tools out)
    (hcomplete : ∀ n ∈ toolNames tools, n ∈ out)
    (d n : String) (h : depRel tools d n) :
    rankIn out d < rankIn out n := by
  have hnn : n ∈ toolNames tools :=
    depsOf_ne_nil_mem tools n (fun hnil => by rw [depRel, hnil] at h; simp at h)
  have hno : n ∈ out := hcomplete n hnn
  rcases mem_first_split out n hno with ⟨pre, post, hsplit, hnpre⟩
  have hdpre : d ∈ pre := hresp pre n post hsplit d h
  have h1 : rankIn out d < pre.length := rankIn_prefix_lt out pre n post hsplit d hdpre
  have h2 : rankIn out n = pre.length := by
    rw [hsplit]
    exact rankIn_eq pre n post hnpre
  rw [h2]
  exact h1

/-- A complete duplicate-free dependency-respecting order rules out cycles. -/
theorem no_cycle_of_complete (tools : List Tool) (out : List String)
    (hresp : depsRespected tools out)
    (hcomplete : ∀ n ∈ toolNames tools, n ∈ out) :
    ¬ hasDepCycle tools := by
  intro ⟨n, hn⟩
  have hlt : ∀ a b, Relation.TransGen (depRel tools) a b → rankIn out a < rankIn out b := by
    intro a b htg
    induction htg with
    | single h => exact depRel_rank_lt tools out hresp hcomplete _ _ h
    | tail _ h ihr =>
      exact lt_trans ihr (depRel_rank_lt tools out hresp hcomplete _ _ h)
  exact lt_irrefl _ (hlt n n hn)

/-- If every unprocessed name keeps an unprocessed dependency and at least one
name is unprocessed, the dependency graph has a cycle. -/
theorem cycle_of_stuck (tools : List Tool)
    (hcl : ∀ t ∈ tools, ∀ d ∈ t.dependsOn, d ∈ toolNames tools)
    (out : List String)
    (hstuck : ∀ n ∈ toolNames tools, ¬ n ∈ out → ∃ d ∈ depsOf tools n, ¬ d ∈ out)
    (n0 : String) (hn0 : n0 ∈ toolNames tools) (hn0o : ¬ n0 ∈ out) :
    hasDepCycle tools := by
  classical
  have hstep : ∀ x : {x : String // x ∈ toolNames tools ∧ ¬ x ∈ out},
      ∃ y : {x : String // x ∈ toolNames tools ∧ ¬ x ∈ out}, depRel tools y.1 x.1 := by
    rintro ⟨x, hx1, hx2⟩
    rcases hstuck x hx1 hx2 with ⟨d, hd1, hd2⟩
    have hdn : d ∈ toolNames tools := by
      rcases depsOf_mem tools x d hd1 with ⟨t, ht, hname, hdep⟩
      exact hcl t ht d hdep
    exact ⟨⟨d, hdn, hd2⟩, hd1⟩
  choose g hg using hstep
  set f : Nat → {x : String // x ∈ toolNames tools ∧ ¬ x ∈ out} :=
    fun k => Nat.rec ⟨n0, hn0, hn0o⟩ (fun _ prev => g prev) k with hf
  have hchain : ∀ k, depRel tools (f (k + 1)).1 (f k).1 := by
    intro k
    exact hg (f k)
  have htrans : ∀ m k, Relation.TransGen (depRel tools) (f (k + m + 1)).1 (f k).1 := by
    intro m
    induction m with
    | zero => exact fun k => Relation.TransGen.single (hchain k)
    | succ m ihm =>
      intro k
      exact Relation.TransGen.trans
        (Relation.TransGen.single (hchain (k + m + 1))) (ihm k)
  have hc2 : ((toolNames tools).toFinset).card
      < (Finset.univ : Finset (Fin ((toolNames tools).length + 1))).card := by
    rw [Finset.card_univ, Fintype.card_fin]
    exact Nat.lt_succ_of_le (List.toFinset_card_le _)
  have hf2 : ∀ a ∈ (Finset.univ : Finset (Fin ((toolNames tools).length + 1))),
      (f a.1).1 ∈ (toolNames tools).toFinset :=
    fun a _ => List.mem_toFinset.mpr (f a.1).2.1
  obtain ⟨i, _, j, _, hij, hfij⟩ :=
    Finset.exists_ne_map_eq_of_card_lt_of_maps_to hc2 hf2
  have hcyc : ∀ (a b : Fin ((toolNames tools).length + 1)), a.1 < b.1 →
      (f a.1).1 = (f b.1).1 → hasDepCycle tools := by
    intro a b hab heq
    obtain ⟨m, hm⟩ : ∃ m, b.1 = a.1 + m + 1 := ⟨b.1 - a.1 - 1, by omega⟩
    refine ⟨(f a.1).1, ?_⟩
    have h2 := htrans m a.1
    rw [← hm] at h2
    nth_rewrite 1 [heq]
    exact h2
  rcases Nat.lt_or_ge i.1 j.1 with hlt | hge
  · exact hcyc i j hlt hfij
  · have hlt : j.1 < i.1 := by
      rcases Nat.lt_or_ge j.1 i.1 with h | h
      · exact h
      · exact absurd (Fin.ext (by omega)) hij
    exact hcyc j i hlt hfij.symm

/-- The Kahn run from the seeded initial state: its output is duplicate-free,
drawn from the tool names, dependency-respecting, and leaves out only names
with a left-out dependency. -/
theorem kahnRun_props (seed : List String) (tools : List Tool)
    (hnd : (toolNames tools).Nodup)
    (hseed : seed.Perm (toolNames tools)) :
    (∀ n, countName (kahnRun seed tools) n ≤ 1) ∧
    (∀ x ∈ kahnRun seed tools, x ∈ toolNames tools) ∧
    depsRespected tools (kahnRun seed tools) ∧
    (∀ n ∈ toolNames tools, ¬ n ∈ kahnRun seed tools →
      ∃ d ∈ depsOf tools n, ¬ d ∈ kahnRun seed tools) := by
  have hsnd : seed.Nodup := hseed.nodup_iff.mpr hnd
  refine kahnLoop_spec tools (kahnFuel tools seed)
    (seed.filter (fun n => inDegreeInit tools n = 0)) (inDegreeInit tools) []
    ?_ ?_ ?_ ?_ ?_ ?_
  · intro n
    rw [List.nil_append]
    exact countName_le_one_of_nodup _ (hsnd.filter _) n
  · intro x hx
    rw [List.nil_append] at hx
    exact hseed.subset (List.mem_of_mem_filter hx)
  · intro n
    rw [filter_not_mem_nil]
    exact inDegreeInit_eq tools n
  · intro n
    rw [List.mem_filter]
    constructor
    · intro ⟨h1, h2⟩
      exact ⟨hseed.subset h1, by simp, by simpa using h2⟩
    · intro ⟨h1, _, h3⟩
      exact ⟨hseed.mem_iff.mpr h1, by simpa using h3⟩
  · intro pre n post h
    exact absurd h.symm (List.cons_ne_nil n post ∘ (List.append_eq_nil.mp · |>.2))
  · unfold kahnFuel toolNames
    rw [List.length_map]
    omega

/-- For a name in the pool, `nameToTool` picks a tool from the list whose
name matches. -/
theorem nameToTool_mem_name (tools : List Tool) (n : String) (hn : n ∈ toolNames tools) :
    nameToTool tools n ∈ tools ∧ (nameToTool tools n).name = n := by
  have hne : tools.filter (fun t => t.name = n) ≠ [] := by
    rcases List.mem_map.mp hn with ⟨t, ht, rfl⟩
    intro hnil
    have hmem : t ∈ tools.filter (fun u => u.name = t.name) :=
      List.mem_filter.mpr ⟨ht, by simp⟩
    rw [hnil] at hmem
    simp at hmem
  have hmem : nameToTool tools n ∈ tools.filter (fun t => t.name = n) := by
    unfold nameToTool
    rw [List.getLastD_eq_getLast?, List.getLast?_eq_getLast _ hne, Option.getD_some]
    exact List.getLast_mem hne
  rcases List.mem_filter.mp hmem with ⟨h1, h2⟩
  exact ⟨h1, by simpa using h2⟩

/-- With unique names, `nameToTool` inverts `Tool.name` on the list. -/
theorem nameToTool_of_mem (tools : List Tool) (hnd : (toolNames tools).Nodup)
    (t : Tool) (ht : t ∈ tools) : nameToTool tools t.name = t := by
  induction tools with
  | nil => simp at ht
  | cons t0 rest ih =>
    have hnd0 : ¬ t0.name ∈ toolNames rest ∧ (toolNames rest).Nodup := by
      unfold toolNames at hnd ⊢
      rw [List.map_cons] at hnd
      exact ⟨(List.nodup_cons.mp hnd).1, (List.nodup_cons.mp hnd).2⟩
    rcases List.mem_cons.mp ht with h | h
    · subst h
      have hfr : rest.filter (fun u => u.name = t.name) = [] := by
        rw [List.filter_eq_nil_iff]
        intro u hu
        simp only [decide_eq_true_eq]
        intro hc
        exact hnd0.1 (hc ▸ List.mem_map_of_mem (fun v => v.name) hu)
      unfold nameToTool
      rw [List.filter_cons, if_pos (by simp), hfr]
      rfl
    · have hne : ¬ t0.name = t.name := by
        intro hc
        exact hnd0.1 (hc ▸ List.mem_map_of_mem (fun v => v.name) h)
      unfold nameToTool at ih ⊢
      rw [List.filter_cons, if_neg (by simpa using hne)]
      exact ih hnd0.2 h

/-- Mapping names back to tools is the identity on the name list. -/
theorem map_nameToTool (tools : List Tool) (hnd : (toolNames tools).Nodup) :
    (toolNames tools).map (nameToTool tools) = tools := by
  unfold toolNames
  rw [List.map_map]
  have : ∀ t ∈ tools, (nameToTool tools ∘ fun u => u.name) t = id t := by
    intro t ht
    exact nameToTool_of_mem tools hnd t ht
  rw [List.map_congr_left this, List.map_id]

/-- A duplicate-free selection from a duplicate-free pool of equal size is a
permutation of it. -/
theorem perm_of_counts (l names : List String) (hc : ∀ n, countName l n ≤ 1)
    (hsub : ∀ x ∈ l, x ∈ names) (hlen : l.length = names.length) :
    l.Perm names := by
  have hld : l.Nodup := nodup_of_countName_le_one l hc
  exact (List.subperm_of_subset hld hsub).perm_of_length_le (le_of_eq hlen.symm)

/-- A tool's declared dependency is an edge of `depsOf` at its name. -/
theorem mem_depsOf (tools : List Tool) (t : Tool) (d : String)
    (ht : t ∈ tools) (hd : d ∈ t.dependsOn) : d ∈ depsOf tools t.name := by
  unfold depsOf
  refine List.mem_flatten.mpr ⟨t.dependsOn, ?_, hd⟩
  exact List.mem_map.mpr ⟨t, List.mem_filter.mpr ⟨ht, by simp⟩, rfl⟩

/-- Full correctness of `GetInstallOrder` over any admissible iteration order
of the in-degree map: on an acyclic configuration it returns a permutation of
the tools in which every tool follows all its dependencies; on a cyclic
configuration it reports the cycle error. -/
theorem getInstallOrder_correct_aux (seed : List String) (tools : List Tool)
    (hnd : (toolNames tools).Nodup)
    (hcl : ∀ t ∈ tools, ∀ d ∈ t.dependsOn, d ∈ toolNames tools)
    (hseed : seed.Perm (toolNames tools)) :
    (¬ hasDepCycle tools →
      ∃ order, GetInstallOrder seed tools = some order ∧
        order.length = tools.length ∧ order.Perm tools ∧
        ∀ pre t post, order = pre ++ t :: post →
          ∀ d ∈ t.dependsOn, ∃ pt ∈ pre, pt.name = d) ∧
    (hasDepCycle tools → GetInstallOrder seed tools = none) := by
  obtain ⟨hcnt, hsub, hresp, hstuck⟩ := kahnRun_props seed tools hnd hseed
  have hnameslen : (toolNames tools).length = tools.length := by
    unfold toolNames
    rw [List.length_map]
  have hlen_le : (kahnRun seed tools).length ≤ tools.length := by
    have := length_le_of_counts (kahnRun seed tools) (toolNames tools) hcnt hsub
    omega
  constructor
  · intro hacyc
    have hlen : (kahnRun seed tools).length = tools.length := by
      by_contra hne
      have hmiss : ∃ n ∈ toolNames tools, ¬ n ∈ kahnRun seed tools := by
        by_contra hall
        push_neg at hall
        have h1 : (toolNames tools).length ≤ (kahnRun seed tools).length :=
          (List.subperm_of_subset hnd hall).length_le
        omega
      rcases hmiss with ⟨n0, hn0, hn0o⟩
      exact hacyc (cycle_of_stuck tools hcl (kahnRun seed tools) hstuck n0 hn0 hn0o)
    have hpermN : (kahnRun seed tools).Perm (toolNames tools) :=
      perm_of_counts _ _ hcnt hsub (by omega)
    refine ⟨(kahnRun seed tools).map (nameToTool tools), ?_, ?_, ?_, ?_⟩
    · rw [getInstallOrder_eq, if_pos hlen]
    · rw [List.length_map]
      exact hlen
    · have hm := hpermN.map (nameToTool tools)
      rwa [map_nameToTool tools hnd] at hm
    · intro pre t post hsplit d hd
      rcases List.map_eq_append_iff.mp hsplit with ⟨preN, restN, hkr, hpre, hrest⟩
      rcases List.map_eq_cons_iff.mp hrest with ⟨nN, postN, hrn, hfn, hpost⟩
      subst hfn
      have hnN : nN ∈ toolNames tools := by
        apply hsub
        rw [hkr, hrn]
        exact List.mem_append.mpr (Or.inr (by simp))
      obtain ⟨htmem, htname⟩ := nameToTool_mem_name tools nN hnN
      have hdeps : d ∈ depsOf tools nN := by
        rw [← htname]
        exact mem_depsOf tools _ d htmem hd
      have hdpre : d ∈ preN := by
        apply hresp preN nN postN _ d hdeps
        rw [hkr, hrn]
      have hdn : d ∈ toolNames tools := by
        rcases depsOf_mem tools nN d hdeps with ⟨u, hu, _, hdep⟩
        exact hcl u hu d hdep
      refine ⟨nameToTool tools d, ?_, (nameToTool_mem_name tools d hdn).2⟩
      rw [← hpre]
      exact List.mem_map_of_mem (nameToTool tools) hdpre
  · intro hcyc
    rw [getInstallOrder_eq]
    rw [if_neg]
    intro hlen
    have hpermN : (kahnRun seed tools).Perm (toolNames tools) :=
      perm_of_counts _ _ hcnt hsub (by omega)
    have hcomplete : ∀ n ∈ toolNames tools, n ∈ kahnRun seed tools := fun n hn =>
      hpermN.mem_iff.mpr hn
    exact no_cycle_of_complete tools _ hresp hcomplete hcyc

/-- C2: over any admissible iteration order of the in-degree map, on every
valid configuration (unique names, dependencies naming known tools) whose
depends_on graph is acyclic, `GetInstallOrder` succeeds with a list containing
each input tool exactly once — a permutation of the input, so output length
equals input length — in which every tool appears after every tool it
depends on; on every configuration with a dependency cycle it returns the
cycle error and no partial order. -/
theorem getInstallOrder_resolves (seed : List String) (tools : List Tool)
    (hnd : (toolNames tools).Nodup)
    (hcl : ∀ t ∈ tools, ∀ d ∈ t.dependsOn, d ∈ toolNames tools)
    (hseed : seed.Perm (toolNames tools)) :
    (¬ hasDepCycle tools →
      ∃ order, GetInstallOrder seed tools = some order ∧
        order.length = tools.length ∧ order.Perm tools ∧
        ∀ pre t post, order = pre ++ t :: post →
          ∀ d ∈ t.dependsOn, ∃ pt ∈ pre, pt.name = d) ∧
    (hasDepCycle tools → GetInstallOrder seed tools = none) :=
  getInstallOrder_correct_aux seed tools hnd hcl hseed

/-- Witness for C2: the acyclic chain `B depends_on A` resolves to a full
dependency-respecting order, and the cycle `A ↔ B` is rejected. -/
theorem getInstallOrder_resolves_witness :
    (∃ order, GetInstallOrder ["A", "B"] demoChain = some order ∧
      order.length = demoChain.length ∧ order.Perm demoChain ∧
      ∀ pre t post, order = pre ++ t :: post →
        ∀ d ∈ t.dependsOn, ∃ pt ∈ pre, pt.name = d) ∧
    GetInstallOrder ["A", "B"] demoCycle = none := by
  have hacyc : ¬ hasDepCycle demoChain := by
    apply no_cycle_of_complete demoChain ["A", "B"]
    · intro pre n post hsplit d hd
      cases pre with
      | nil =>
        rw [List.nil_append] at hsplit
        injection hsplit with h1 h2
        rw [← h1] at hd
        rw [show depsOf demoChain "A" = [] from by decide] at hd
        simp at hd
      | cons p pre' =>
        cases pre' with
        | nil =>
          rw [List.cons_append, List.nil_append] at hsplit
          injection hsplit with h1 hrest
          injection hrest with h2 h3
          rw [← h2] at hd
          rw [show depsOf demoChain "B" = ["A"] from by decide] at hd
          have hd1 : d = "A" := by simpa using hd
          rw [hd1, ← h1]
          simp
        | cons q pre'' =>
          exfalso
          have hl := congrArg List.length hsplit
          simp [List.length_append] at hl
    · intro n hn
      exact hn
  have hcyc : hasDepCycle demoCycle := by
    have h1 : depRel demoCycle "A" "B" := by
      show "A" ∈ depsOf demoCycle "B"
      decide
    have h2 : depRel demoCycle "B" "A" := by
      show "B" ∈ depsOf demoCycle "A"
      decide
    exact ⟨"A", Relation.TransGen.tail (Relation.TransGen.single h1) h2⟩
  constructor
  · exact (getInstallOrder_resolves ["A", "B"] demoChain (by decide) (by decide)
      (by decide)).1 hacyc
  · exact (getInstallOrder_resolves ["A", "B"] demoCycle (by decide) (by decide)
      (by decide)).2 hcyc

/-- C3 counterexample: for the fixed two-independent-tool configuration, the
two iteration orders of the in-degree map — both permutations of the same
name set, either of which a Go run may observe — make `GetInstallOrder`
return different orders, so two runs on identical input need not produce
identical output. -/
theorem getInstallOrder_seed_counterexample :
    ["A", "B"].Perm (toolNames demoFree) ∧ ["B", "A"].Perm (toolNames demoFree) ∧
    GetInstallOrder ["A", "B"] demoFree ≠ GetInstallOrder ["B", "A"] demoFree := by
  refine ⟨by decide, by decide, by decide⟩

/-- C3 amended: `GetInstallOrder` is deterministic only relative to the
iteration order of the Go in-degree map, which the language leaves
unspecified; each admissible iteration order yields a valid dependency-
respecting permutation of the tools, but two runs may observe different
iteration orders and hence return different (both valid) orders. -/
theorem getInstallOrder_seed_dependence (tools : List Tool) (s1 s2 : List String)
    (hnd : (toolNames tools).Nodup)
    (hcl : ∀ t ∈ tools, ∀ d ∈ t.dependsOn, d ∈ toolNames tools)
    (h1 : s1.Perm (toolNames tools)) (h2 : s2.Perm (toolNames tools))
    (hacyc : ¬ hasDepCycle tools) :
    ∃ o1 o2, GetInstallOrder s1 tools = some o1 ∧ GetInstallOrder s2 tools = some o2 ∧
      o1.Perm tools ∧ o2.Perm tools ∧
      (∀ pre t post, o1 = pre ++ t :: post → ∀ d ∈ t.dependsOn, ∃ pt ∈ pre, pt.name = d) ∧
      (∀ pre t post, o2 = pre ++ t :: post → ∀ d ∈ t.dependsOn, ∃ pt ∈ pre, pt.name = d) := by
  obtain ⟨o1, e1, _, p1, r1⟩ := (getInstallOrder_correct_aux s1 tools hnd hcl h1).1 hacyc
  obtain ⟨o2, e2, _, p2, r2⟩ := (getInstallOrder_correct_aux s2 tools hnd hcl h2).1 hacyc
  exact ⟨o1, o2, e1, e2, p1, p2, r1, r2⟩

/-- Witness for the amended C3 at the two-independent-tool configuration and
its two iteration orders. -/
theorem getInstallOrder_seed_dependence_witness :
    ∃ o1 o2, GetInstallOrder ["A", "B"] demoFree = some o1 ∧
      GetInstallOrder ["B", "A"] demoFree = some o2 ∧
      o1.Perm demoFree ∧ o2.Perm demoFree ∧
      (∀ pre t post, o1 = pre ++ t :: post → ∀ d ∈ t.dependsOn, ∃ pt ∈ pre, pt.name = d) ∧
      (∀ pre t post, o2 = pre ++ t :: post → ∀ d ∈ t.dependsOn, ∃ pt ∈ pre, pt.name = d) := by
  have hacyc : ¬ hasDepCycle demoFree := by
    apply no_cycle_of_complete demoFree ["A", "B"]
    · intro pre n post hsplit d hd
      exfalso
      have hn : n ∈ ["A", "B"] := by
        rw [hsplit]
        simp
      have hn2 : n = "A" ∨ n = "B" := by simpa using hn
      rcases hn2 with rfl | rfl
      · rw [show depsOf demoFree "A" = [] from by decide] at hd
        simp at hd
      · rw [show depsOf demoFree "B" = [] from by decide] at hd
        simp at hd
    · intro n hn
      exact hn
  exact getInstallOrder_seed_dependence demoFree ["A", "B"] ["B", "A"] (by decide) (by decide)
    (by decide) (by decide) hacyc

end DevSetup
